import Mathlib

/-!
Shallow embedding of `src/strings.ts` of the `typedash` utility library,
together with proofs about the word-segmentation engine, the case
converters, the wildcard compiler and the template compiler.

Strings are modelled as Lean `String` (lists of Unicode scalar values);
JavaScript regular expressions are embedded by hand-translating each
concrete regex of the source into an executable matcher with the same
backtracking semantics, as documented at each definition.
-/

/-! ## Character classes of the source regexes -/

/-- Uppercase class `[A-Z\xc0-\xd6\xd8-\xde]` of the `unicodeWords` regex. -/
def isUpperU (c : Char) : Bool :=
  (0x41 ≤ c.toNat && c.toNat ≤ 0x5a) || (0xc0 ≤ c.toNat && c.toNat ≤ 0xd6) ||
    (0xd8 ≤ c.toNat && c.toNat ≤ 0xde)

/-- Lowercase class `[a-z\xdf-\xf6\xf8-\xff]` of the `unicodeWords` regex. -/
def isLowerU (c : Char) : Bool :=
  (0x61 ≤ c.toNat && c.toNat ≤ 0x7a) || (0xdf ≤ c.toNat && c.toNat ≤ 0xf6) ||
    (0xf8 ≤ c.toNat && c.toNat ≤ 0xff)

/-- Digit class `\d` = `[0-9]`. -/
def isDigitC (c : Char) : Bool :=
  0x30 ≤ c.toNat && c.toNat ≤ 0x39

/-- Separator class `[\xac\xb1\xd7\xf7\x00-\x2f\x3a-\x40\x5b-\x60\x7b-\xbf \t\x0b\f\xa0\n\r]`
of the `unicodeWords` regex.  The singleton members `\xac \xb1 \xa0` and the
whitespace characters are already inside the ranges `\x00-\x2f` and
`\x7b-\xbf`, so the class is the union of those ranges with `\xd7` and `\xf7`. -/
def isSepU (c : Char) : Bool :=
  (c.toNat ≤ 0x2f) || (0x3a ≤ c.toNat && c.toNat ≤ 0x40) ||
    (0x5b ≤ c.toNat && c.toNat ≤ 0x60) || (0x7b ≤ c.toNat && c.toNat ≤ 0xbf) ||
    (c.toNat == 0xd7) || (c.toNat == 0xf7)

/-- ASCII uppercase `[A-Z]` (used by the `hasUnicodeWord` detector regex). -/
def isAsciiUpperC (c : Char) : Bool :=
  0x41 ≤ c.toNat && c.toNat ≤ 0x5a

/-- ASCII lowercase `[a-z]` (used by the `hasUnicodeWord` detector regex). -/
def isAsciiLowerC (c : Char) : Bool :=
  0x61 ≤ c.toNat && c.toNat ≤ 0x7a

/-- ASCII letter `[a-zA-Z]`. -/
def isAsciiAlphaC (c : Char) : Bool :=
  isAsciiUpperC c || isAsciiLowerC c

/-- Word-forming class of the `asciiWords` regex
`[^\x00-\x2f\x3a-\x40\x5b-\x60\x7b-\x7f]`. -/
def isAsciiWordC (c : Char) : Bool :=
  !((c.toNat ≤ 0x2f) || (0x3a ≤ c.toNat && c.toNat ≤ 0x40) ||
    (0x5b ≤ c.toNat && c.toNat ≤ 0x60) || (0x7b ≤ c.toNat && c.toNat ≤ 0x7f))

/-! ## Generic matching helpers -/

/-- Length of the maximal (greedy) run of characters satisfying `p` at the
head of the list; this is the first candidate of a greedy `p+`/`p*`. -/
def runLen (p : Char → Bool) : List Char → Nat
  | [] => 0
  | c :: t => if p c then runLen p t + 1 else 0

/-- Backtracking of a greedy run against a lookahead: try run lengths
`j, j-1, …, lo` in order and return the first length whose following
position (`cs.drop` that length) satisfies the lookahead `la`.  This is
exactly how a backtracking regex engine resolves `X+ (?= la)` (and
`X* (?= la)` with `lo = 0`). -/
def shrinkRun (la : List Char → Bool) (cs : List Char) (lo : Nat) : Nat → Option Nat
  | 0 => if lo == 0 && la cs then some 0 else none
  | j + 1 =>
    if lo ≤ j + 1 && la (cs.drop (j + 1)) then some (j + 1)
    else shrinkRun la cs lo j

/-! ## The `unicodeWords` matcher

The source regex is a five-way alternation, tried left to right at each
position:

1. `[Upper]?[Lower]+(?=[Sep]|[Upper]|$)`
2. `(?:[Upper])+(?=[Sep]|[Upper](?:[Lower])|$)`
3. `[Upper]?(?:[Lower])+`
4. `[Upper]+`
5. `\d+`

Each alternative is embedded as a function returning the length of the
match at the head of the list, `none` when it fails there. -/

/-- Lookahead `(?=[Sep]|[Upper]|$)` of alternative 1. -/
def la1 : List Char → Bool
  | [] => true
  | c :: _ => isSepU c || isUpperU c

/-- Lookahead `(?=[Sep]|[Upper](?:[Lower])|$)` of alternative 2. -/
def la2 : List Char → Bool
  | [] => true
  | c :: rest =>
    isSepU c || (isUpperU c && (match rest with | d :: _ => isLowerU d | [] => false))

/-- Trivial lookahead (alternative 3 has no trailing constraint). -/
def laTrue : List Char → Bool := fun _ => true

/-- Alternatives 1 and 3 of `unicodeWords`: `[Upper]? [Lower]+ (?= la)`.
The optional leading capital is greedy (tried first), the `[Lower]+` run is
greedy and backtracks against the lookahead. -/
def altUL (la : List Char → Bool) (cs : List Char) : Option Nat :=
  let without :=
    let k := runLen isLowerU cs
    if k == 0 then none else shrinkRun la cs 1 k
  match cs with
  | [] => none
  | c :: rest =>
    if isUpperU c then
      let k := runLen isLowerU rest
      if k == 0 then without
      else
        match shrinkRun la rest 1 k with
        | some j => some (j + 1)
        | none => without
    else without

/-- Alternative 2 of `unicodeWords`: `[Upper]+ (?= la2)`, greedy with
backtracking. -/
def altAcr (cs : List Char) : Option Nat :=
  let k := runLen isUpperU cs
  if k == 0 then none else shrinkRun la2 cs 1 k

/-- Alternative 4 of `unicodeWords`: `[Upper]+`. -/
def altCaps (cs : List Char) : Option Nat :=
  let k := runLen isUpperU cs
  if k == 0 then none else some k

/-- Alternative 5 of `unicodeWords`: `\d+`. -/
def altDigits (cs : List Char) : Option Nat :=
  let k := runLen isDigitC cs
  if k == 0 then none else some k

/-- Match of the full `unicodeWords` alternation at the head of the list:
alternatives are tried in the source order, the first success wins. -/
def uniMatch (cs : List Char) : Option Nat :=
  (altUL la1 cs) <|> (altAcr cs) <|> (altUL laTrue cs) <|> (altCaps cs) <|> (altDigits cs)

/-- Match of the `asciiWords` regex `[word]+` at the head of the list. -/
def asciiMatch (cs : List Char) : Option Nat :=
  let k := runLen isAsciiWordC cs
  if k == 0 then none else some k

/-! ## The `hasUnicodeWord` detector

Source regex: `[a-z][A-Z]|[A-Z]{2,}[a-z]|[0-9][a-zA-Z]|[a-zA-Z][0-9]|[^a-zA-Z0-9 ]`,
used with `.test`, i.e. "does a match exist at some position". -/

/-- Lookahead-style check: head character is ASCII lowercase. -/
def laAsciiLower : List Char → Bool
  | [] => false
  | d :: _ => isAsciiLowerC d

/-- Does some alternative of the `hasUnicodeWord` regex match at the head of
the list?  The `[A-Z]{2,}[a-z]` alternative is a greedy run of at least two
capitals backtracking against a following lowercase letter. -/
def hasUniAt : List Char → Bool
  | [] => false
  | c :: rest =>
    (isAsciiLowerC c && (match rest with | d :: _ => isAsciiUpperC d | [] => false)) ||
    (let k := runLen isAsciiUpperC (c :: rest)
     (2 ≤ k : Bool) && (shrinkRun laAsciiLower (c :: rest) 2 k).isSome) ||
    (isDigitC c && (match rest with | d :: _ => isAsciiAlphaC d | [] => false)) ||
    (isAsciiAlphaC c && (match rest with | d :: _ => isDigitC d | [] => false)) ||
    !(isAsciiAlphaC c || isDigitC c || c == ' ')

/-- The `.test` of `hasUnicodeWord`: some position admits a match. -/
def hasUni : List Char → Bool
  | [] => false
  | c :: rest => hasUniAt (c :: rest) || hasUni rest

/-! ## Global matching (`String.prototype.match` with the `g` flag)

JavaScript collects the successive non-overlapping matches scanning left to
right; a position with no match advances by one, an empty match is recorded
and also advances by one.  `gmatchF` is fuel-indexed (fuel bounds the
number of scanning steps; `gmatch` supplies the input length, which
suffices because every step consumes at least one character). -/

/-- Fuel-indexed global-match driver. -/
def gmatchF (m : List Char → Option Nat) : Nat → List Char → List (List Char)
  | _, [] => if (m []).isSome then [[]] else []
  | 0, _ :: _ => []
  | f + 1, c :: rest =>
    match m (c :: rest) with
    | none => gmatchF m f rest
    | some 0 => [] :: gmatchF m f rest
    | some (n + 1) => (c :: rest).take (n + 1) :: gmatchF m f ((c :: rest).drop (n + 1))

/-- Global match: all successive matches of `m` over the list. -/
def gmatch (m : List Char → Option Nat) (cs : List Char) : List (List Char) :=
  gmatchF m cs.length cs

/-! ## `words` -/

/-- Body of `words` on a non-empty string: select the matcher with the
`hasUnicodeWord` test and collect all matches. -/
def matchWords (s : String) : List String :=
  (if hasUni s.data then gmatch uniMatch s.data else gmatch asciiMatch s.data).map
    fun l => String.mk l

/-- Embedding of `words (str?: string | null)`.  The absent and `null`
inputs are both modelled by `none`; the source short-circuits on any falsy
input (`undefined`, `null`, the empty string) and returns `[]`, and also
returns `[]` when `match` finds nothing. -/
def words (str : Option String) : List String :=
  match str with
  | none => []
  | some s => if s == "" then [] else matchWords s

/-! ## Case converters -/

/-- Per-character model of JavaScript `toLowerCase` on the Latin-1 range
(the only range the word tokens can contain): `A-Z` and the Latin-1
capitals `\xc0-\xd6 \xd8-\xde` map 32 code points up, everything else is
unchanged. -/
def jsLowerChar (c : Char) : Char :=
  if (0x41 ≤ c.toNat && c.toNat ≤ 0x5a) || (0xc0 ≤ c.toNat && c.toNat ≤ 0xd6) ||
      (0xd8 ≤ c.toNat && c.toNat ≤ 0xde) then
    Char.ofNat (c.toNat + 32)
  else c

/-- Embedding of `lowerCase (s) { return s.toLowerCase() }` (Latin-1 model). -/
def lowerCase (s : String) : String :=
  String.mk (s.data.map jsLowerChar)

/-- Model of JavaScript `toUpperCase` of a single character on the Latin-1
range, as a string because the mapping is not length-preserving there
(`ß` uppercases to `"SS"`): `a-z` and `\xe0-\xf6 \xf8-\xfe` map 32 code
points down, `µ` to `Μ`, `ß` to `SS`, `ÿ` to `Ÿ`, everything else is
unchanged. -/
def jsUpperStr (c : Char) : String :=
  if (0x61 ≤ c.toNat && c.toNat ≤ 0x7a) || (0xe0 ≤ c.toNat && c.toNat ≤ 0xf6) ||
      (0xf8 ≤ c.toNat && c.toNat ≤ 0xfe) then
    String.mk [Char.ofNat (c.toNat - 32)]
  else if c.toNat == 0xb5 then String.mk [Char.ofNat 0x39c]
  else if c.toNat == 0xdf then "SS"
  else if c.toNat == 0xff then String.mk [Char.ofNat 0x178]
  else String.mk [c]

/-- Embedding of `capitalize (str) { return str[0].toUpperCase() + str.slice(1) }`.
On the empty string, `str[0]` is `undefined` and `undefined.toUpperCase()`
throws a `TypeError`; the thrown execution is modelled by `none`. -/
def capitalize (str : String) : Option String :=
  match str.data with
  | [] => none
  | c :: rest => some (jsUpperStr c ++ String.mk rest)

/-- JavaScript `Array.prototype.join(sep)` on an array of strings. -/
def jsJoinSep (sep : String) : List String → String
  | [] => ""
  | [a] => a
  | a :: b :: rest => a ++ sep ++ jsJoinSep sep (b :: rest)

/-- Sequence a list of `Option`s: the first `none` (a thrown exception in
the JavaScript source) propagates. -/
def seqOpt : List (Option α) → Option (List α)
  | [] => some []
  | o :: t =>
    match o with
    | some a => (seqOpt t).map fun l => a :: l
    | none => none

/-- Embedding of `mapWords (str, wordMapFn, join = '')`: segment, map the
per-word function over the tokens with their indices, join with the
separator.  The word function is `Option`-valued so that an exception
thrown by a word function (`capitalize` on an empty token) propagates,
modelled by `none`. -/
def mapWords (str : String) (wordMapFn : Nat → String → Option String)
    (join : String) : Option String :=
  (seqOpt ((words (some str)).mapIdx wordMapFn)).map
    fun l => jsJoinSep join l

/-- Embedding of `caseStr (casing, str) { return mapWords(str, lowerCase, casing) }`. -/
def caseStr (casing : String) (str : String) : Option String :=
  mapWords str (fun _ w => some (lowerCase w)) casing

/-- Embedding of `kebabCase = curry(caseStr)('-')`.  The `curry` combinator
lives in `src/functions.ts`, which is not part of the sources; per the
spec's interface contract it only fixes the first of the two positional
arguments of `caseStr`, so `kebabCase` is `caseStr` applied to `"-"`. -/
def kebabCase (s : String) : Option String :=
  caseStr "-" s

/-- Embedding of `snakeCase = curry(caseStr)('_')` (same `curry` contract
as `kebabCase`). -/
def snakeCase (s : String) : Option String :=
  caseStr "_" s

/-- Embedding of `camelCase`: `mapWords` with the word function
`(word, i) => { word = lowerCase(word); return i === 0 ? word : capitalize(word) }`
and the default empty join. -/
def camelCase (str : String) : Option String :=
  mapWords str
    (fun i w => if i == 0 then some (lowerCase w) else capitalize (lowerCase w)) ""

/-! ## JavaScript values

The template machinery is generic in the value type `T`; the claims use
string maps, absent values and the JavaScript falsy values, so `T` is
embedded as a small JavaScript value type with its truthiness. -/

/-- JavaScript values appearing in the template claims. -/
inductive JSValue where
  | vStr (s : String)
  | vNum (n : Int)
  | vBool (b : Bool)
  | vNull
  | vUndefined
deriving DecidableEq

/-- JavaScript truthiness of a `JSValue` (`""`, `0`, `false`, `null`,
`undefined` are falsy). -/
def jsTruthy : JSValue → Bool
  | .vStr s => !(s == "")
  | .vNum n => !(n == 0)
  | .vBool b => b
  | .vNull => false
  | .vUndefined => false

/-- JavaScript `a || b`. -/
def jsOr (a b : JSValue) : JSValue :=
  if jsTruthy a then a else b

/-- JavaScript property read `value[key]` on an object literal modelled as
an association list: the first binding of the key, `undefined` when the key
is absent. -/
def jsIndex (value : List (String × JSValue)) (key : String) : JSValue :=
  match value.lookup key with
  | some v => v
  | none => .vUndefined

/-- Embedding of
`templateObject (value, nullValue) { return function (key) { return value[key] || nullValue } }`.
An omitted `nullValue` argument is `undefined`, i.e. `.vUndefined`. -/
def templateObject (value : List (String × JSValue)) (nullValue : JSValue)
    (key : String) : JSValue :=
  jsOr (jsIndex value key) nullValue

/-! ## The template compiler

`template` splits the template string on
`/(\${([\s]*[^;\s{]+[\s]*)})/g` — a split whose regex carries two capture
groups, so JavaScript splices both captured texts (the whole `${…}` match
and the inner group) into the split array — then builds the source text of
a function `return [ … ]` and compiles it with the `Function`
constructor. -/

/-- JavaScript `\s`: whitespace and line terminators. -/
def isJsSpace (c : Char) : Bool :=
  (c.toNat == 0x9) || (c.toNat == 0xa) || (c.toNat == 0xb) || (c.toNat == 0xc) ||
    (c.toNat == 0xd) || (c.toNat == 0x20) || (c.toNat == 0xa0) || (c.toNat == 0x1680) ||
    (0x2000 ≤ c.toNat && c.toNat ≤ 0x200a) || (c.toNat == 0x2028) || (c.toNat == 0x2029) ||
    (c.toNat == 0x202f) || (c.toNat == 0x205f) || (c.toNat == 0x3000) || (c.toNat == 0xfeff)

/-- Character class `[^;\s{]` of the placeholder key. -/
def isKeyChar (c : Char) : Bool :=
  !(c == ';' || isJsSpace c || c == '\x7b')

/-- Backtracking of the greedy `[^;\s{]+` run of the placeholder regex
against its tail `[\s]*}`: try key-run lengths `j, j-1, …, 1`; at each
length take the greedy whitespace run that follows and require a closing
`}` after it.  (Shortening the whitespace run instead can never help, since
the character after fewer spaces is a space, not `}`.)  Returns the chosen
key-run length and the length of the following whitespace run. -/
def phShrink (t2 : List Char) : Nat → Option (Nat × Nat)
  | 0 => none
  | j + 1 =>
    let d := runLen isJsSpace (t2.drop (j + 1))
    match (t2.drop (j + 1)).drop d with
    | '\x7d' :: _ => some (j + 1, d)
    | _ => phShrink t2 j

/-- Match of the placeholder regex `\${([\s]*[^;\s{]+[\s]*)}` at the head of
the list, returning the total match length and the characters of the inner
capture group (which spans everything between the braces, surrounding
whitespace included).  The leading `[\s]*` is greedy and cannot usefully
backtrack (`[^;\s{]` rejects whitespace); the `[^;\s{]+` run is greedy and
backtracks against `[\s]*}` — backtracking there matters, because `}`
itself belongs to `[^;\s{]`. -/
def phMatch (cs : List Char) : Option (Nat × List Char) :=
  match cs with
  | '$' :: '\x7b' :: t =>
    let a := runLen isJsSpace t
    let t2 := t.drop a
    let b := runLen isKeyChar t2
    if b == 0 then none
    else
      match phShrink t2 b with
      | some (j, d) => some (2 + a + j + d + 1, t.take (a + j + d))
      | none => none
  | _ => none

/-- Fuel-indexed scan of `String.prototype.split` on the placeholder regex:
pieces between matches are emitted, and for each match the two captured
texts (the whole match, then the inner group) are spliced in. -/
def splitGoF : Nat → List Char → List Char → List String
  | _, [], acc => [String.mk acc.reverse]
  | 0, _ :: _, acc => [String.mk acc.reverse]
  | f + 1, c :: rest, acc =>
    match phMatch (c :: rest) with
    | some (n, key) =>
      String.mk acc.reverse :: String.mk ((c :: rest).take n) :: String.mk key ::
        splitGoF f ((c :: rest).drop n) []
    | none => splitGoF f rest (c :: acc)

/-- Embedding of `template.split(/(\${([\s]*[^;\s{]+[\s]*)})/g)`. -/
def splitTemplate (s : String) : List String :=
  splitGoF s.data.length s.data []

/-- The `sanitized[i][0] === '$'` check of the code-generation loop
(indexing the empty string yields `undefined`, which is not `'$'`). -/
def headIsDollar (s : String) : Bool :=
  match s.data with
  | '$' :: _ => true
  | _ => false

/-- Embedding of `.replace('"', '\\"')`: a string (not regex) pattern, so
JavaScript replaces only the first occurrence of `"`. -/
def escFirstQuote : List Char → List Char
  | [] => []
  | c :: r => if c == '\x22' then '\x5c' :: '\x22' :: r else c :: escFirstQuote r

/-- The code-generation loop of `template`: a piece whose first character
is `'$'` contributes `$d('<next piece>'),` (consuming the next piece, the
captured key; past the end of the array the lookup is `undefined`, which
the template literal renders as the text `undefined`), any other piece
contributes `"<piece with its first quote escaped>",`. -/
def genGo : List String → List Char
  | [] => []
  | s :: rest =>
    if headIsDollar s then
      match rest with
      | k :: r2 =>
        '$' :: 'd' :: '(' :: '\x27' :: (k.data ++ '\x27' :: ')' :: ',' :: genGo r2)
      | [] =>
        '$' :: 'd' :: '(' :: '\x27' :: (("undefined").data ++ ['\x27', ')', ','])
    else '\x22' :: (escFirstQuote s.data ++ '\x22' :: ',' :: genGo rest)

/-- The source text handed to the `Function` constructor:
`'return [' + items + ']'`. -/
def fnSource (tpl : String) : List Char :=
  ("return [").data ++ genGo (splitTemplate tpl) ++ [']']

/-! ### The `Function` constructor

The generated text is parsed back as the JavaScript program
`return [ item, …, ]` whose items are double-quoted string literals or
calls `$d('…')` with a single-quoted literal.  The embedding implements
the JavaScript (sloppy-mode) string-literal grammar — escape sequences,
legacy octal escapes, line-continuations, the ban on raw `\n`/`\r` inside
literals — and rejects (`none`, modelling a thrown `SyntaxError` or any
escape of this grammar) generated text that does not parse this way. -/

/-- One item of the parsed generated program. -/
inductive GenItem where
  | glit (s : String)
  | gdyn (key : String)
deriving DecidableEq

/-- Is `c` an octal digit? -/
def isOctalC (c : Char) : Bool :=
  0x30 ≤ c.toNat && c.toNat ≤ 0x37

/-- Hex digit value of `c`, if any. -/
def hexVal (c : Char) : Option Nat :=
  if 0x30 ≤ c.toNat && c.toNat ≤ 0x39 then some (c.toNat - 0x30)
  else if 0x41 ≤ c.toNat && c.toNat ≤ 0x46 then some (c.toNat - 0x37)
  else if 0x61 ≤ c.toNat && c.toNat ≤ 0x66 then some (c.toNat - 0x57)
  else none

/-- Decode one escape sequence after the backslash; returns the decoded
characters (empty for a line continuation) and the remaining input, `none`
on a malformed escape. -/
def escDecode : List Char → Option (List Char × List Char)
  | [] => none
  | e :: t =>
    if e == 'n' then some ([Char.ofNat 0xa], t)
    else if e == 't' then some ([Char.ofNat 0x9], t)
    else if e == 'b' then some ([Char.ofNat 0x8], t)
    else if e == 'v' then some ([Char.ofNat 0xb], t)
    else if e == 'f' then some ([Char.ofNat 0xc], t)
    else if e == 'r' then some ([Char.ofNat 0xd], t)
    else if e == 'x' then
      match t with
      | h1 :: h2 :: t2 =>
        match hexVal h1, hexVal h2 with
        | some a, some b => some ([Char.ofNat (16 * a + b)], t2)
        | _, _ => none
      | _ => none
    else if e == 'u' then
      match t with
      | h1 :: h2 :: h3 :: h4 :: t2 =>
        match hexVal h1, hexVal h2, hexVal h3, hexVal h4 with
        | some a, some b, some c, some d =>
          let n := 4096 * a + 256 * b + 16 * c + d
          if 0xd800 ≤ n && n ≤ 0xdfff then none else some ([Char.ofNat n], t2)
        | _, _, _, _ => none
      | _ => none
    else if isOctalC e then
      let v1 := e.toNat - 0x30
      match t with
      | d2 :: t2 =>
        if isOctalC d2 then
          let v2 := 8 * v1 + (d2.toNat - 0x30)
          if v1 ≤ 3 then
            match t2 with
            | d3 :: t3 =>
              if isOctalC d3 then some ([Char.ofNat (8 * v2 + (d3.toNat - 0x30))], t3)
              else some ([Char.ofNat v2], t2)
            | [] => some ([Char.ofNat v2], t2)
          else some ([Char.ofNat v2], t2)
        else some ([Char.ofNat v1], t)
      | [] => some ([Char.ofNat v1], t)
    else if e == '8' || e == '9' then some ([e], t)
    else if e.toNat == 0xd then
      match t with
      | f :: t2 => if f.toNat == 0xa then some ([], t2) else some ([], t)
      | [] => some ([], t)
    else if e.toNat == 0xa || e.toNat == 0x2028 || e.toNat == 0x2029 then some ([], t)
    else some ([e], t)

/-- Fuel-indexed parse of the body of a JavaScript string literal delimited
by `q`, accumulating decoded characters; raw `\n`/`\r` inside the literal
and an unterminated literal are errors. -/
def strLitF (q : Char) : Nat → List Char → List Char → Option (String × List Char)
  | _, [], _ => none
  | 0, _ :: _, _ => none
  | f + 1, c :: rest, acc =>
    if c == q then some (String.mk acc.reverse, rest)
    else if c == '\x5c' then
      match escDecode rest with
      | some (ds, rest2) => strLitF q f rest2 (ds.reverse ++ acc)
      | none => none
    else if c.toNat == 0xa || c.toNat == 0xd then none
    else strLitF q f rest (c :: acc)

/-- Parse a string literal body (after the opening quote `q`). -/
def parseStrLit (q : Char) (cs : List Char) : Option (String × List Char) :=
  strLitF q cs.length cs []

/-- Fuel-indexed parse of the comma-terminated items of the generated
array up to the closing `]`, which must end the program. -/
def genItemsF : Nat → List Char → Option (List GenItem)
  | _, [']'] => some []
  | 0, _ => none
  | f + 1, '\x22' :: t =>
    match parseStrLit '\x22' t with
    | some (s, ',' :: t2) => (genItemsF f t2).map fun items => .glit s :: items
    | _ => none
  | f + 1, '$' :: 'd' :: '(' :: '\x27' :: t =>
    match parseStrLit '\x27' t with
    | some (k, ')' :: ',' :: t2) => (genItemsF f t2).map fun items => .gdyn k :: items
    | _ => none
  | _, _ => none

/-- Parse of the whole generated program `return [ … ]`. -/
def parseGen (cs : List Char) : Option (List GenItem) :=
  match cs with
  | 'r' :: 'e' :: 't' :: 'u' :: 'r' :: 'n' :: ' ' :: '[' :: t => genItemsF t.length t
  | _ => none

/-- Evaluation of the compiled function body on a resolver `$d`: string
literals evaluate to their decoded text, `$d('k')` to the resolver's
value. -/
def evalGen (items : List GenItem) (d : String → JSValue) : List JSValue :=
  items.map fun
    | .glit s => .vStr s
    | .gdyn k => d k

/-- Embedding of `template`: split, generate the function source, compile
it with the `Function` constructor (a parse failure of the generated text,
i.e. a thrown `SyntaxError`, is `none`); the compiled value is the
function from a resolver to the array of resolved segments. -/
def template (tpl : String) : Option ((String → JSValue) → List JSValue) :=
  (parseGen (fnSource tpl)).map fun items d => evalGen items d

/-- JavaScript `Array.prototype.join('')` on the resolved segments:
`undefined` and `null` render as the empty string, other values by their
string conversion. -/
def jsJoin (l : List JSValue) : String :=
  String.join (l.map fun
    | .vStr s => s
    | .vNum n => toString n
    | .vBool b => if b then "true" else "false"
    | .vNull => ""
    | .vUndefined => "")

/-! ## The wildcard compiler -/

/-- Line terminators (the characters JavaScript `.` does not match). -/
def isLineTermC (c : Char) : Bool :=
  (c.toNat == 0xa) || (c.toNat == 0xd) || (c.toNat == 0x2028) || (c.toNat == 0x2029)

/-- Is `c` one of the metacharacters of the escape class
`[\-\[\]\/{}()?.\\^$|]` of `wildcardToRegExp`? -/
def isWcMeta (c : Char) : Bool :=
  c == '-' || c == '[' || c == ']' || c == '/' || c == '\x7b' || c == '\x7d' ||
    c == '(' || c == ')' || c == '?' || c == '.' || c == '\x5c' || c == '^' ||
    c == '$' || c == '|'

/-- The escape pass `.replace(/[\-\[\]\/{}()?.\\^$|]/g, '\\$&')`. -/
def escapeMeta (s : String) : String :=
  String.mk (s.data.flatMap fun c => if isWcMeta c then ['\x5c', c] else [c])

/-- The pass `.replace(/\*/g, '.*?')`. -/
def starRepl (s : String) : String :=
  String.mk (s.data.flatMap fun c => if c == '*' then ['.', '*', '?'] else [c])

/-- The pass `.replace(/\+/g, '.+?')`. -/
def plusRepl (s : String) : String :=
  String.mk (s.data.flatMap fun c => if c == '+' then ['.', '+', '?'] else [c])

/-- The anchored pattern source built for a non-raw wildcard pattern. -/
def wildcardPattern (p : String) : String :=
  "^" ++ plusRepl (starRepl (escapeMeta p)) ++ "$"

/-- Is `c` one of the inline flags `[im]` accepted by the raw-regex escape
hatch? -/
def isImFlag (c : Char) : Bool :=
  c == 'i' || c == 'm'

/-- Backtracking search for the raw-regex escape hatch
`/^\/(.+)\/([im]+)?$/` after the leading `/`: the greedy `(.+)` backtracks
from the longest prefix, so the split point is the largest `j ≥ 1` such
that `t` has `/` at position `j`, the body `t.take j` contains no line
terminator (`.` does not cross those) and the remainder after the `/`
consists of `[im]` flags only (possibly empty, the optional group). -/
def hatchSplit (t : List Char) : Nat → Option (List Char × List Char)
  | 0 => none
  | j + 1 =>
    match t.drop (j + 1) with
    | '/' :: fl =>
      if fl.all isImFlag && (t.take (j + 1)).all (fun c => !isLineTermC c) then
        some (t.take (j + 1), fl)
      else hatchSplit t j
    | _ => hatchSplit t j

/-- Embedding of `/^\/(.+)\/([im]+)?$/.exec(wildcardPattern)`: the body
capture and the optional flags capture (`none` when the optional group did
not participate). -/
def hatchExec (s : String) : Option (String × Option String) :=
  match s.data with
  | '/' :: t =>
    match hatchSplit t t.length with
    | some (body, fl) =>
      some (String.mk body, if fl == [] then none else some (String.mk fl))
    | none => none
  | _ => none

/-- Embedding of `wildcardToRegExp (wildcardPattern, flags)`.  A `RegExp`
object is modelled by its source text and its flags; the raw-regex branch
returns `new RegExp(regexMatch[1], regexMatch[2] || flags)`, the glob
branch the anchored transformed pattern with the given flags. -/
def wildcardToRegExp (wildcardPattern' : String) (flags : Option String) :
    String × Option String :=
  match hatchExec wildcardPattern' with
  | some (body, fl) =>
    (body, match fl with | some f => some f | none => flags)
  | none => (wildcardPattern wildcardPattern', flags)

/-! ### Matching the compiled glob regexes

A pattern built by the glob branch is `^ … $` around a sequence of
backslash-escaped literals, plain literals, `.*?` and `.+?`; the parser
below recognises exactly this shape (any other regex construct falls
outside the glob fragment and is rejected), and the matcher decides
whether a full anchored match exists — for `.test`, only existence
matters, so the lazy quantifiers are matched by searching all split
points. -/

/-- A token of a compiled glob pattern. -/
inductive WcTok where
  | lit (c : Char)
  | anyStar
  | anyPlus
deriving DecidableEq

/-- Characters that are regex metacharacters when unescaped (a generated
glob pattern contains none of them outside the recognised shapes). -/
def isRegexSpecial (c : Char) : Bool :=
  c == '^' || c == '$' || c == '.' || c == '*' || c == '+' || c == '?' ||
    c == '(' || c == ')' || c == '[' || c == ']' || c == '\x7b' || c == '\x7d' ||
    c == '|' || c == '\x5c'

/-- Fuel-indexed parse of the pattern body up to the final `$`. -/
def patItemsF : Nat → List Char → Option (List WcTok)
  | _, ['$'] => some []
  | 0, _ => none
  | f + 1, '\x5c' :: c :: t => (patItemsF f t).map fun ts => .lit c :: ts
  | f + 1, '.' :: '*' :: '?' :: t => (patItemsF f t).map fun ts => .anyStar :: ts
  | f + 1, '.' :: '+' :: '?' :: t => (patItemsF f t).map fun ts => .anyPlus :: ts
  | f + 1, c :: t => if isRegexSpecial c then none else (patItemsF f t).map fun ts => .lit c :: ts
  | _, [] => none

/-- Parse an anchored glob pattern `^ … $` into its token list. -/
def parsePat (pat : String) : Option (List WcTok) :=
  match pat.data with
  | '^' :: t => patItemsF t.length t
  | _ => none

/-- All suffixes of `ds` reachable by `.*` (skipping zero or more
non-line-terminator characters from the front). -/
def starSkips : List Char → List (List Char)
  | [] => [[]]
  | d :: ds => (d :: ds) :: (if isLineTermC d then [] else starSkips ds)

/-- Full anchored match of a token list against a character list: a `lit`
consumes its character, `.*?` consumes any (possibly empty) run of
non-line-terminators, `.+?` a non-empty such run.  For the boolean `.test`
result, matching is existence of a decomposition, so laziness is
irrelevant. -/
def wcAccept : List WcTok → List Char → Bool
  | [], [] => true
  | [], _ :: _ => false
  | .lit _ :: _, [] => false
  | .lit c :: ts, d :: ds => c == d && wcAccept ts ds
  | .anyStar :: ts, ds => (starSkips ds).any fun t => wcAccept ts t
  | .anyPlus :: ts, ds =>
    match ds with
    | [] => false
    | d :: ds2 => !isLineTermC d && ((starSkips ds2).any fun t => wcAccept ts t)

/-- The `.test` of a compiled glob regex (modelled only on the glob
fragment; `none` when the pattern source falls outside it). -/
def wcTest (pat : String) (s : String) : Option Bool :=
  (parsePat pat).map fun ts => wcAccept ts s.data

/-! ## Specification-side definitions

These definitions follow the spec's wording (a total first-character
capitalisation, the parsed segment view of a template, the
hyphen-separated lowercase word form); the claim theorems relate them to
the source embeddings above. -/

/-- Total first-character capitalisation, the spec's description of
`capitalize` on non-empty input (and the empty string for empty input). -/
def capFirstSpec (s : String) : String :=
  match s.data with
  | [] => ""
  | c :: rest => jsUpperStr c ++ String.mk rest

/-- A parsed template segment: a literal or a placeholder key. -/
inductive TemplSeg where
  | lit (s : String)
  | ph (key : String)
deriving DecidableEq

/-- Code-side segment classification (not the spec's parse): the
code-generation loop classifies each split piece by whether its first
character is `$`, a `$`-piece consuming the next piece as its placeholder
key (`"undefined"` past the end of the array) and any other piece being a
literal.  This definition only bridges the generated program back to the
split array inside the proofs; the specification's parse of a template is
`splitSegs` below. -/
def segsGo : List String → List TemplSeg
  | [] => []
  | s :: rest =>
    if headIsDollar s then
      match rest with
      | k :: r2 => TemplSeg.ph k :: segsGo r2
      | [] => [TemplSeg.ph "undefined"]
    else TemplSeg.lit s :: segsGo rest

/-- The spec's parse of the split array.  A split on a regex with two
capture groups produces a literal piece, then for each match the whole
matched text and the captured key, then the next literal piece, and so on:
`p₀, m₁, k₁, p₁, m₂, k₂, p₂, …`.  The parsed segment sequence is the
literal pieces interleaved with the captured keys, the whole-match pieces
skipped.  (The two-element arm is unreachable on genuine split output,
whose length is always `1` modulo `3`.) -/
def splitSegs : List String → List TemplSeg
  | [] => []
  | [p] => [TemplSeg.lit p]
  | [p, _] => [TemplSeg.lit p]
  | p :: _ :: k :: rest => TemplSeg.lit p :: TemplSeg.ph k :: splitSegs rest

/-- The parsed segment sequence of a template string, per the spec's
split grammar. -/
def segsOfSpec (tpl : String) : List TemplSeg :=
  splitSegs (splitTemplate tpl)

/-- Resolution of one segment: literals pass through, placeholders are
replaced by the resolver's value. -/
def resolveSeg (d : String → JSValue) : TemplSeg → JSValue
  | .lit s => .vStr s
  | .ph k => d k

/-- Characters that survive the generated double-quoted literal verbatim:
everything except the double quote, the backslash and the line
terminators rejected inside string literals. -/
def litCleanChar (c : Char) : Bool :=
  !(c == '\x22' || c == '\x5c' || c.toNat == 0xa || c.toNat == 0xd)

/-- Characters that survive the generated single-quoted key verbatim. -/
def keyCleanChar (c : Char) : Bool :=
  !(c == '\x27' || c == '\x5c' || c.toNat == 0xa || c.toNat == 0xd)

/-- A segment whose generated code round-trips verbatim. -/
def segClean : TemplSeg → Bool
  | .lit s => s.data.all litCleanChar
  | .ph k => k.data.all keyCleanChar

/-- A well-behaved segment of the spec's parse: a literal piece must not
begin with `$` (otherwise the code-generation loop misclassifies it as a
placeholder marker) and must round-trip the generated double-quoted
literal verbatim; a key must round-trip the generated single-quoted
literal verbatim. -/
def segOk : TemplSeg → Bool
  | .lit s => !headIsDollar s && s.data.all litCleanChar
  | .ph k => k.data.all keyCleanChar

/-- The shape of a genuine split result: a final literal piece, or a
literal piece followed by a `$`-initial whole-match piece, a key piece and
a tail of the same shape. -/
inductive SplitShape : List String → Prop where
  | single (p : String) : SplitShape [p]
  | triple (p m k : String) (rest : List String) (hm : headIsDollar m = true)
      (h : SplitShape rest) : SplitShape (p :: m :: k :: rest)

/-- The corresponding parsed item of the generated program. -/
def segItem : TemplSeg → GenItem
  | .lit s => .glit s
  | .ph k => .gdyn k

/-- Hyphen-joined word lists at the character level. -/
def interData : List (List Char) → List Char
  | [] => []
  | [w] => w
  | w :: v :: ws => w ++ '-' :: interData (v :: ws)

/-- The hyphen-separated lowercase word form of the idempotence claim:
`s` is the hyphen-join of a list of non-empty all-ASCII-lowercase words. -/
def KebabForm (ws : List String) (s : String) : Prop :=
  s = jsJoinSep "-" ws ∧ ∀ w ∈ ws, w.data ≠ [] ∧ ∀ c ∈ w.data, isAsciiLowerC c = true

/-! ## Character-class lemmas -/

/-- An ASCII lowercase letter in every class it meets: it is in the
lowercase class of `unicodeWords`, in no other first-character class, and
is an `asciiWords` word character. -/
theorem asciiLower_classes (c : Char) (h : isAsciiLowerC c = true) :
    isLowerU c = true ∧ isUpperU c = false ∧ isDigitC c = false ∧
      isAsciiUpperC c = false ∧ isAsciiWordC c = true := by
  simp only [isAsciiLowerC, isLowerU, isUpperU, isDigitC, isAsciiUpperC, isAsciiWordC,
    Bool.or_eq_true, Bool.and_eq_true, Bool.not_eq_true', Bool.or_eq_false_iff,
    Bool.and_eq_false_iff, decide_eq_true_eq, decide_eq_false_iff_not] at h ⊢
  omega

/-- ASCII uppercase letters are in the `unicodeWords` uppercase class. -/
theorem asciiUpper_subset (c : Char) (h : isAsciiUpperC c = true) : isUpperU c = true := by
  simp only [isAsciiUpperC, isUpperU, Bool.or_eq_true, Bool.and_eq_true,
    decide_eq_true_eq] at h ⊢
  omega

/-- ASCII lowercase letters are in the `unicodeWords` lowercase class. -/
theorem asciiLower_subset (c : Char) (h : isAsciiLowerC c = true) : isLowerU c = true :=
  (asciiLower_classes c h).1

/-! ## Lemmas about runs and backtracking -/

/-- A greedy run over an append whose left part satisfies the predicate. -/
theorem runLen_append (p : Char → Bool) (xs ys : List Char)
    (h : ∀ c ∈ xs, p c = true) :
    runLen p (xs ++ ys) = xs.length + runLen p ys := by
  induction xs with
  | nil => simp [runLen]
  | cons c t ih =>
    have hc : p c = true := h c (List.mem_cons_self c t)
    simp only [List.cons_append, runLen, hc, if_true, List.append_eq, List.length_cons]
    rw [ih fun d hd => h d (List.mem_cons_of_mem c hd)]
    omega

/-- A greedy run stops immediately at a failing head. -/
theorem runLen_head_false (p : Char → Bool) (c : Char) (t : List Char)
    (h : p c = false) : runLen p (c :: t) = 0 := by
  simp [runLen, h]

/-- `shrinkRun` succeeds at once when the lookahead holds after the full
greedy run. -/
theorem shrinkRun_hit (la : List Char → Bool) (cs : List Char) (lo j : Nat)
    (h1 : lo ≤ j) (h2 : la (cs.drop j) = true) : shrinkRun la cs lo j = some j := by
  cases j with
  | zero =>
    have : lo = 0 := Nat.le_zero.mp h1
    simp only [shrinkRun, this]
    simpa using h2
  | succ j =>
    simp only [shrinkRun]
    rw [if_pos]
    simp only [Bool.and_eq_true, decide_eq_true_eq]
    exact ⟨h1, h2⟩

/-- A successful `shrinkRun` returns at least the lower bound. -/
theorem shrinkRun_lo (la : List Char → Bool) (cs : List Char) (lo : Nat) :
    ∀ j r, shrinkRun la cs lo j = some r → lo ≤ r := by
  intro j
  induction j with
  | zero =>
    intro r h
    simp only [shrinkRun] at h
    split at h
    · rename_i hcond
      simp only [Bool.and_eq_true, beq_iff_eq] at hcond
      cases h
      omega
    · cases h
  | succ j ih =>
    intro r h
    simp only [shrinkRun] at h
    split at h
    · rename_i hcond
      simp only [Bool.and_eq_true, decide_eq_true_eq] at hcond
      cases h
      exact hcond.1
    · exact ih r h

/-! ## Lemmas about the global-match driver -/

/-- The driver does not depend on the fuel once the fuel covers the input
length. -/
theorem gmatchF_fuel (m : List Char → Option Nat) :
    ∀ f g cs, cs.length ≤ f → cs.length ≤ g → gmatchF m f cs = gmatchF m g cs := by
  intro f
  induction f with
  | zero =>
    intro g cs hf _
    have : cs = [] := List.length_eq_zero.mp (Nat.le_zero.mp hf)
    subst this
    cases g <;> rfl
  | succ f ih =>
    intro g cs hf hg
    cases cs with
    | nil => cases g <;> rfl
    | cons c rest =>
      cases g with
      | zero => simp at hg
      | succ g =>
        have hrest : rest.length ≤ f := by simp at hf; omega
        have hrestg : rest.length ≤ g := by simp at hg; omega
        cases hm : m (c :: rest) with
        | none => simp only [gmatchF, hm]; exact ih g rest hrest hrestg
        | some n =>
          cases n with
          | zero => simp only [gmatchF, hm]; rw [ih g rest hrest hrestg]
          | succ n =>
            have hd : ((c :: rest).drop (n + 1)).length ≤ f := by
              simp [List.length_drop]
              omega
            have hdg : ((c :: rest).drop (n + 1)).length ≤ g := by
              simp [List.length_drop]
              omega
            simp only [gmatchF, hm]
            rw [ih g _ hd hdg]

/-- Driver step on a position with no match. -/
theorem gmatch_cons_none (m : List Char → Option Nat) (c : Char) (rest : List Char)
    (h : m (c :: rest) = none) : gmatch m (c :: rest) = gmatch m rest := by
  simp only [gmatch, List.length_cons, gmatchF, h]

/-- Driver step on a position with a non-empty match. -/
theorem gmatch_cons_pos (m : List Char → Option Nat) (c : Char) (rest : List Char)
    (n : Nat) (h : m (c :: rest) = some (n + 1)) :
    gmatch m (c :: rest) =
      (c :: rest).take (n + 1) :: gmatch m ((c :: rest).drop (n + 1)) := by
  simp only [gmatch, List.length_cons, gmatchF, h]
  rw [gmatchF_fuel m rest.length ((c :: rest).drop (n + 1)).length]
  · simp [List.length_drop]
  · exact Nat.le_refl _

/-! ## Lemmas about the matchers -/

/-- Neither matcher matches at the end of the input. -/
theorem uniMatch_nil : uniMatch [] = none := by decide

/-- The `asciiWords` matcher does not match at the end of the input. -/
theorem asciiMatch_nil : asciiMatch [] = none := by decide

/-- The `unicodeWords` alternation fails at a head character that is in
none of the first-character classes (uppercase, lowercase, digit). -/
theorem uniMatch_head_false (c : Char) (rest : List Char)
    (hu : isUpperU c = false) (hl : isLowerU c = false) (hd : isDigitC c = false) :
    uniMatch (c :: rest) = none := by
  have h1 : runLen isLowerU (c :: rest) = 0 := runLen_head_false _ _ _ hl
  have h2 : runLen isUpperU (c :: rest) = 0 := runLen_head_false _ _ _ hu
  have h3 : runLen isDigitC (c :: rest) = 0 := runLen_head_false _ _ _ hd
  simp [uniMatch, altUL, altAcr, altCaps, altDigits, h1, h2, h3, hu]

/-- The `asciiWords` matcher fails at a non-word head character. -/
theorem asciiMatch_head_false (c : Char) (rest : List Char)
    (h : isAsciiWordC c = false) : asciiMatch (c :: rest) = none := by
  simp [asciiMatch, runLen_head_false _ _ _ h]


/-- A successful `altUL` match consumes at least one character. -/
theorem altUL_pos (la : List Char → Bool) (cs : List Char) (n : Nat)
    (hm : altUL la cs = some n) : 1 ≤ n := by
  cases cs with
  | nil => simp [altUL] at hm
  | cons c rest =>
    simp only [altUL] at hm
    split at hm
    · split at hm
      · split at hm
        · cases hm
        · exact shrinkRun_lo _ _ _ _ _ hm
      · split at hm
        · rename_i j hj
          cases hm
          omega
        · split at hm
          · cases hm
          · exact shrinkRun_lo _ _ _ _ _ hm
    · split at hm
      · cases hm
      · exact shrinkRun_lo _ _ _ _ _ hm

/-- A successful `altAcr` match consumes at least one character. -/
theorem altAcr_pos (cs : List Char) (n : Nat) (hm : altAcr cs = some n) : 1 ≤ n := by
  simp only [altAcr] at hm
  split at hm
  · cases hm
  · exact shrinkRun_lo _ _ _ _ _ hm

/-- A successful `altCaps` match consumes at least one character. -/
theorem altCaps_pos (cs : List Char) (n : Nat) (hm : altCaps cs = some n) : 1 ≤ n := by
  simp only [altCaps] at hm
  split at hm
  · cases hm
  · rename_i hk
    cases hm
    simp only [beq_iff_eq] at hk
    omega

/-- A successful `altDigits` match consumes at least one character. -/
theorem altDigits_pos (cs : List Char) (n : Nat) (hm : altDigits cs = some n) : 1 ≤ n := by
  simp only [altDigits] at hm
  split at hm
  · cases hm
  · rename_i hk
    cases hm
    simp only [beq_iff_eq] at hk
    omega

/-- A successful match of the `unicodeWords` alternation consumes at least
one character. -/
theorem uniMatch_pos (cs : List Char) (n : Nat) (h : uniMatch cs = some n) : 1 ≤ n := by
  simp only [uniMatch] at h
  rcases h1 : altUL la1 cs with _ | m1
  · rw [h1, Option.none_orElse] at h
    rcases h2 : altAcr cs with _ | m2
    · rw [h2, Option.none_orElse] at h
      rcases h3 : altUL laTrue cs with _ | m3
      · rw [h3, Option.none_orElse] at h
        rcases h4 : altCaps cs with _ | m4
        · rw [h4, Option.none_orElse] at h
          exact altDigits_pos cs n h
        · rw [h4, Option.some_orElse] at h
          cases h
          exact altCaps_pos cs _ h4
      · rw [h3, Option.some_orElse] at h
        cases h
        exact altUL_pos laTrue cs _ h3
    · rw [h2, Option.some_orElse] at h
      cases h
      exact altAcr_pos cs _ h2
  · rw [h1, Option.some_orElse] at h
    cases h
    exact altUL_pos la1 cs _ h1

/-- A successful match of the `asciiWords` matcher consumes at least one
character. -/
theorem asciiMatch_pos (cs : List Char) (n : Nat) (h : asciiMatch cs = some n) :
    1 ≤ n := by
  simp only [asciiMatch] at h
  split at h
  · cases h
  · rename_i hk
    cases h
    simp only [beq_iff_eq] at hk
    omega

/-- Every token collected by the driver is non-empty, provided the matcher
never matches at the end of input and never matches zero characters. -/
theorem gmatchF_ne_nil (m : List Char → Option Nat) (h0 : m [] = none)
    (h1 : ∀ cs n, m cs = some n → 1 ≤ n) :
    ∀ f cs t, t ∈ gmatchF m f cs → t ≠ [] := by
  intro f
  induction f with
  | zero =>
    intro cs t ht
    cases cs with
    | nil => simp [gmatchF, h0] at ht
    | cons c rest => simp [gmatchF] at ht
  | succ f ih =>
    intro cs t ht
    cases cs with
    | nil => simp [gmatchF, h0] at ht
    | cons c rest =>
      simp only [gmatchF] at ht
      cases hm : m (c :: rest) with
      | none =>
        rw [hm] at ht
        exact ih rest t ht
      | some n =>
        rw [hm] at ht
        cases n with
        | zero => exact absurd (h1 _ _ hm) (by omega)
        | succ n =>
          simp only [List.mem_cons] at ht
          cases ht with
          | inl he =>
            subst he
            simp
          | inr hmem => exact ih _ t hmem

/-- The driver collects nothing when the matcher fails at every suffix the
scan reaches; stated for a matcher failing at every list of characters
drawn from a set the input lives in. -/
theorem gmatchF_nil_of_head_fail (m : List Char → Option Nat) (h0 : m [] = none)
    (p : Char → Prop) (hfail : ∀ c rest, p c → m (c :: rest) = none) :
    ∀ f cs, (∀ c ∈ cs, p c) → gmatchF m f cs = [] := by
  intro f
  induction f with
  | zero =>
    intro cs hcs
    cases cs with
    | nil => simp [gmatchF, h0]
    | cons c rest => simp [gmatchF]
  | succ f ih =>
    intro cs hcs
    cases cs with
    | nil => simp [gmatchF, h0]
    | cons c rest =>
      have hm : m (c :: rest) = none :=
        hfail c rest (hcs c (List.mem_cons_self c rest))
      simp only [gmatchF, hm]
      exact ih rest fun d hd => hcs d (List.mem_cons_of_mem c hd)

/-! ## Lemmas about `words`, `seqOpt` and `hasUni` -/

/-- Strings built from non-empty character lists are non-empty. -/
theorem mk_ne_empty (l : List Char) (h : l ≠ []) : String.mk l ≠ "" := by
  intro he
  exact h (congrArg String.data he)

/-- Every token of `words` is a non-empty string. -/
theorem words_token_ne_empty (o : Option String) (w : String) (hw : w ∈ words o) :
    w ≠ "" := by
  cases o with
  | none => simp [words] at hw
  | some s =>
    simp only [words] at hw
    split at hw
    · simp at hw
    · simp only [matchWords, List.mem_map] at hw
      obtain ⟨l, hl, hwl⟩ := hw
      subst hwl
      refine mk_ne_empty l ?_
      split at hl
      · exact gmatchF_ne_nil uniMatch uniMatch_nil uniMatch_pos _ _ l hl
      · exact gmatchF_ne_nil asciiMatch asciiMatch_nil asciiMatch_pos _ _ l hl

/-- `seqOpt` over an indexed map whose entries are all defined, with the
computed values. -/
theorem seqOpt_mapIdx_some {α β : Type} :
    ∀ (l : List α) (f : Nat → α → Option β) (g : Nat → α → β),
      (∀ i a, a ∈ l → f i a = some (g i a)) →
      seqOpt (l.mapIdx f) = some (l.mapIdx g) := by
  intro l
  induction l with
  | nil => intro f g _; rfl
  | cons a t ih =>
    intro f g h
    rw [List.mapIdx_cons, List.mapIdx_cons]
    simp only [seqOpt, h 0 a (List.mem_cons_self a t)]
    rw [ih (fun i => f (i + 1)) (fun i => g (i + 1))
      fun i b hb => h (i + 1) b (List.mem_cons_of_mem a hb)]
    rfl

/-- `lowerCase` preserves non-emptiness. -/
theorem lowerCase_ne_empty (w : String) (h : w ≠ "") : lowerCase w ≠ "" := by
  intro he
  have := congrArg String.data he
  simp only [lowerCase] at this
  rcases hd : w.data with _ | ⟨c, t⟩
  · exact h (by cases w; simp at hd; simp [hd])
  · rw [hd] at this
    simp at this

/-- `capitalize` succeeds on every non-empty string, with the total
first-character description as its value. -/
theorem capitalize_some (s : String) (h : s ≠ "") :
    capitalize s = some (capFirstSpec s) := by
  rcases hd : s.data with _ | ⟨c, t⟩
  · exact absurd (by cases s; simp at hd; simp [hd]) h
  · simp [capitalize, capFirstSpec, hd]

/-- Characters of an input the detector rejects all lie in `[a-zA-Z0-9 ]`. -/
theorem hasUni_false_mem :
    ∀ cs, hasUni cs = false → ∀ c ∈ cs, (isAsciiAlphaC c || isDigitC c || c == ' ') = true := by
  intro cs
  induction cs with
  | nil => intro _ c hc; simp at hc
  | cons c rest ih =>
    intro h d hd
    simp only [hasUni, Bool.or_eq_false_iff] at h
    rcases List.mem_cons.mp hd with he | hm
    · subst he
      have h5 := h.1
      simp only [hasUniAt, Bool.or_eq_false_iff, Bool.not_eq_false'] at h5
      exact h5.2
    · exact ih h.2 d hm

/-- `camelCase` never throws: on every input it is the hyphen-free join of
the tokens, the first lowercased as is, the later ones lowercased and then
capitalised on their first character. -/
theorem camelCase_eq (s : String) :
    camelCase s = some (jsJoinSep ""
      ((words (some s)).mapIdx fun i w =>
        if i == 0 then lowerCase w else capFirstSpec (lowerCase w))) := by
  have h := seqOpt_mapIdx_some (words (some s))
    (fun i w => if i == 0 then some (lowerCase w) else capitalize (lowerCase w))
    (fun i w => if i == 0 then lowerCase w else capFirstSpec (lowerCase w))
    ?_
  · simp only [camelCase, mapWords, h, Option.map_some']
  · intro i w hw
    cases hi : (i == 0) with
    | true => simp [hi]
    | false =>
      simp only [hi, Bool.false_eq_true, if_false]
      exact capitalize_some _ (lowerCase_ne_empty w (words_token_ne_empty _ w hw))

/-! ## Claim theorems -/

/-- Claim C2: the extended matcher's fixed alternative precedence carves
acronym runs away from a following capitalised word and separates digit
runs from letter runs: `words "XMLHttpRequest" = ["XML", "Http", "Request"]`
and `words "foo2bar" = ["foo", "2", "bar"]`. -/
theorem c2_words_boundaries :
    words (some "XMLHttpRequest") = ["XML", "Http", "Request"] ∧
      words (some "foo2bar") = ["foo", "2", "bar"] := by
  exact ⟨by decide, by decide⟩

/-- Claim C6: `words` treats absent input as "no words found": the absent
and `null` inputs (both modelled by `none`) give `[]`, the empty string
gives `[]`, and an input none of whose characters is word-forming (in the
uppercase, lowercase or digit class) also gives the empty token
sequence. -/
theorem c6_words_absent_empty :
    words none = [] ∧ words (some "") = [] ∧
      ∀ s : String,
        (∀ c ∈ s.data, isUpperU c = false ∧ isLowerU c = false ∧ isDigitC c = false) →
        words (some s) = [] := by
  refine ⟨rfl, by decide, ?_⟩
  intro s h
  simp only [words]
  split
  · rfl
  · simp only [matchWords]
    cases hu : hasUni s.data with
    | true =>
      rw [if_pos rfl]
      simp only [gmatch]
      rw [gmatchF_nil_of_head_fail uniMatch uniMatch_nil
        (fun c => isUpperU c = false ∧ isLowerU c = false ∧ isDigitC c = false)
        (fun c rest pc => uniMatch_head_false c rest pc.1 pc.2.1 pc.2.2) _ _ h]
      rfl
    | false =>
      rw [if_neg (by simp)]
      have hsp : ∀ c ∈ s.data, isAsciiWordC c = false := by
        intro c hc
        have h3 := hasUni_false_mem s.data hu c hc
        simp only [Bool.or_eq_true] at h3
        rcases h3 with (ha | hd) | hsp
        · simp only [isAsciiAlphaC, Bool.or_eq_true] at ha
          rcases ha with hup | hlo
          · exact absurd (asciiUpper_subset c hup) (by simp [(h c hc).1])
          · exact absurd (asciiLower_subset c hlo) (by simp [(h c hc).2.1])
        · exact absurd hd (by simp [(h c hc).2.2])
        · have : c = ' ' := by simpa using hsp
          subst this
          decide
      simp only [gmatch]
      rw [gmatchF_nil_of_head_fail asciiMatch asciiMatch_nil
        (fun c => isAsciiWordC c = false) asciiMatch_head_false _ _ hsp]
      rfl

/-- Claim C10: every token produced by `words` is non-empty (both matchers
only match runs of at least one character), so `camelCase`'s internal
`capitalize` of the lowercased tokens at positive indices never receives
the empty string — `camelCase` never reaches `capitalize`'s failure and is
defined on every input. -/
theorem c10_tokens_nonempty :
    (∀ (o : Option String) (w : String), w ∈ words o → w ≠ "") ∧
      ∀ s : String, (camelCase s).isSome = true := by
  refine ⟨words_token_ne_empty, ?_⟩
  intro s
  rw [camelCase_eq]
  rfl

/-- Claim C4: `camelCase` lowercases every token, keeps the first token
as is, capitalises the first character of every later token, and joins
with no separator; in particular `camelCase "foo_bar" = "fooBar"` and
`camelCase "foo-bar-baz" = "fooBarBaz"`. -/
theorem c4_camelCase :
    camelCase "foo_bar" = some "fooBar" ∧
      camelCase "foo-bar-baz" = some "fooBarBaz" ∧
      ∀ s : String,
        camelCase s = some (jsJoinSep ""
          ((words (some s)).mapIdx fun i w =>
            if i == 0 then lowerCase w else capFirstSpec (lowerCase w))) := by
  exact ⟨by decide, by decide, camelCase_eq⟩

/-- Claim C9: `capitalize` uppercases exactly the first character of a
non-empty string and leaves the rest untouched; on the empty string the
indexing of a non-existent character throws (modelled by `none`), and the
failure is reached exactly when the input is empty. -/
theorem c9_capitalize :
    capitalize "" = none ∧
      (∀ (c : Char) (cs : List Char),
        capitalize (String.mk (c :: cs)) = some (jsUpperStr c ++ String.mk cs)) ∧
      ∀ s : String, (capitalize s).isSome ↔ s ≠ "" := by
  refine ⟨rfl, fun c cs => rfl, ?_⟩
  intro s
  constructor
  · intro hs he
    subst he
    simp [capitalize] at hs
  · intro hns
    rw [capitalize_some s hns]
    rfl

/-- Claim C7: `templateObject value nullValue` resolves a key to
`nullValue` whenever the key is absent from the map or is mapped to a
falsy value (`""`, `0`, `false`, `null` — the `||` fallback), and to the
mapped value otherwise; with no `nullValue` given the fallback is
`undefined`, i.e. `JSValue.vUndefined`. -/
theorem c7_templateObject :
    ∀ (value : List (String × JSValue)) (nullValue : JSValue) (key : String),
      (value.lookup key = none → templateObject value nullValue key = nullValue) ∧
      (∀ v, value.lookup key = some v → jsTruthy v = false →
        templateObject value nullValue key = nullValue) ∧
      (∀ v, value.lookup key = some v → jsTruthy v = true →
        templateObject value nullValue key = v) := by
  intro value nullValue key
  refine ⟨?_, ?_, ?_⟩
  · intro h
    simp [templateObject, jsIndex, jsOr, h, jsTruthy]
  · intro v h hf
    simp [templateObject, jsIndex, jsOr, h, hf]
  · intro v h ht
    simp [templateObject, jsIndex, jsOr, h, ht]

/-- Claim C1 (evaluated at the claimed input): the split regex captures
the surrounding whitespace into the key group, so for the template
`"Hello ${ name }!"` the resolver receives the key `" name "` (not
`"name"`); the lookup in `{name: "Bob"}` misses, the placeholder resolves
to `undefined`, and the joined result is `"Hello !"`, not the claimed
`"Hello Bob!"`. -/
theorem c1_spaced_placeholder_key :
    splitTemplate "Hello $\x7b name \x7d!" =
        ["Hello ", "$\x7b name \x7d", " name ", "!"] ∧
      (template "Hello $\x7b name \x7d!").map
          (fun f => jsJoin (f (templateObject [("name", JSValue.vStr "Bob")] JSValue.vUndefined)))
        = some "Hello !" ∧
      ("Hello !" : String) ≠ "Hello Bob!" := by
  exact ⟨by decide, by decide, by decide⟩

/-- Claim C3, counterexample: a literal segment containing a backslash is
not passed through verbatim — the code-generation step pastes the literal
into a double-quoted JavaScript string without escaping backslashes, so in
the template `a\tb` (backslash as a character) the generated `"a\tb"`
parses its `\t` as a tab and the compiled function returns the segment
`"a<TAB>b"`, different from the literal. -/
theorem c3_literal_backslash_changed :
    splitTemplate "a\x5ctb" = ["a\x5ctb"] ∧
      (template "a\x5ctb").map (fun f => f (fun _ => JSValue.vUndefined)) =
        some [JSValue.vStr "a\tb"] ∧
      ("a\tb" : String) ≠ "a\x5ctb" := by
  exact ⟨by decide, by decide, by decide⟩

/-! ## Lemmas for the kebab-case idempotence claim -/

/-- `toLowerCase` fixes ASCII lowercase characters. -/
theorem jsLowerChar_fixed (c : Char) (h : isAsciiLowerC c = true) : jsLowerChar c = c := by
  simp only [isAsciiLowerC, Bool.and_eq_true, decide_eq_true_eq] at h
  simp only [jsLowerChar]
  rw [if_neg]
  simp only [Bool.or_eq_true, Bool.and_eq_true, decide_eq_true_eq, not_or, not_and]
  omega

/-- Rebuilding a string from its characters is the identity. -/
theorem mk_data (s : String) : String.mk s.data = s := by
  cases s
  rfl

/-- `lowerCase` fixes strings of ASCII lowercase characters. -/
theorem lowerCase_fixed (w : String) (h : ∀ c ∈ w.data, isAsciiLowerC c = true) :
    lowerCase w = w := by
  simp only [lowerCase]
  have h1 : w.data.map jsLowerChar = w.data.map id :=
    List.map_congr_left fun c hc => jsLowerChar_fixed c (h c hc)
  rw [h1, List.map_id]

/-- At the start of an all-lowercase word followed by a separator position
(`runLen` of lowercase stops, lookahead 1 holds), the `unicodeWords`
alternation matches exactly the word, through its first alternative. -/
theorem uniMatch_lower_word (w rest : List Char) (hw : w ≠ [])
    (hall : ∀ c ∈ w, isAsciiLowerC c = true)
    (h0 : runLen isLowerU rest = 0) (hla : la1 rest = true) :
    uniMatch (w ++ rest) = some w.length := by
  have hklen : runLen isLowerU (w ++ rest) = w.length := by
    rw [runLen_append isLowerU w rest fun c hc => asciiLower_subset c (hall c hc), h0]
    omega
  have hone : altUL la1 (w ++ rest) = some w.length := by
    cases w with
    | nil => exact absurd rfl hw
    | cons c w' =>
      have hcl := asciiLower_classes c (hall c (List.mem_cons_self c w'))
      have hlen1 : 1 ≤ (c :: w').length := by simp
      have hshr : shrinkRun la1 ((c :: w') ++ rest) 1 (c :: w').length =
          some (c :: w').length := by
        refine shrinkRun_hit la1 _ 1 _ hlen1 ?_
        rw [List.drop_left]
        exact hla
      simp only [List.cons_append, altUL, hcl.2.1, if_false, Bool.false_eq_true]
      rw [← List.cons_append, hklen]
      have : ((c :: w').length == 0) = false := by simp
      rw [this]
      simp only [Bool.false_eq_true, if_false]
      exact hshr
  simp only [uniMatch, hone, Option.some_orElse]

/-- The detector rejects all-ASCII-lowercase input. -/
theorem hasUni_all_lower :
    ∀ cs, (∀ c ∈ cs, isAsciiLowerC c = true) → hasUni cs = false := by
  intro cs
  induction cs with
  | nil => intro _; rfl
  | cons c rest ih =>
    intro h
    have hc := asciiLower_classes c (h c (List.mem_cons_self c rest))
    have hupC : isAsciiUpperC c = false := hc.2.2.2.1
    have hrun : runLen isAsciiUpperC (c :: rest) = 0 := runLen_head_false _ _ _ hupC
    have halpha : isAsciiAlphaC c = true := by
      simp [isAsciiAlphaC, h c (List.mem_cons_self c rest)]
    simp only [hasUni, Bool.or_eq_false_iff]
    refine ⟨?_, ih fun d hd => h d (List.mem_cons_of_mem c hd)⟩
    cases rest with
    | nil => simp [hasUniAt, hrun, hupC, hc.2.2.1, halpha]
    | cons d rest' =>
      have hdc := asciiLower_classes d (h d (List.mem_cons_of_mem c (List.mem_cons_self d rest')))
      simp [hasUniAt, hrun, hupC, hc.2.2.1, halpha, hdc.2.2.2.1, hdc.2.2.1]

/-- Any input containing a hyphen triggers the detector. -/
theorem hasUni_dash (l1 l2 : List Char) : hasUni (l1 ++ '-' :: l2) = true := by
  induction l1 with
  | nil =>
    have h5 : (!(isAsciiAlphaC '-' || isDigitC '-' || '-' == ' ')) = true := by decide
    simp only [List.nil_append, hasUni, hasUniAt, h5, Bool.or_true, Bool.true_or]
  | cons a l1' ih =>
    simp only [List.cons_append, hasUni, List.append_eq]
    rw [ih]
    simp

/-- The driver on a hyphen-join of non-empty all-lowercase words collects
exactly the words. -/
theorem gmatch_kebab :
    ∀ ws : List (List Char),
      (∀ w ∈ ws, w ≠ [] ∧ ∀ c ∈ w, isAsciiLowerC c = true) →
      gmatch uniMatch (interData ws) = ws := by
  intro ws
  induction ws with
  | nil =>
    intro _
    simp [interData, gmatch, gmatchF, uniMatch_nil]
  | cons w ws' ih =>
    intro h
    have hw := h w (List.mem_cons_self w ws')
    obtain ⟨c, w', hcw⟩ : ∃ c w', w = c :: w' := by
      cases w with
      | nil => exact absurd rfl hw.1
      | cons c w' => exact ⟨c, w', rfl⟩
    cases ws' with
    | nil =>
      have hm : uniMatch (w ++ []) = some w.length :=
        uniMatch_lower_word w [] hw.1 hw.2 rfl rfl
      rw [List.append_nil] at hm
      subst hcw
      have hm' : uniMatch (c :: w') = some (w'.length + 1) := by
        simpa using hm
      rw [show interData [c :: w'] = c :: w' from rfl]
      rw [gmatch_cons_pos uniMatch c w' w'.length hm']
      have hlen : w'.length + 1 = (c :: w').length := by simp
      rw [hlen, List.take_length, List.drop_length]
      simp [gmatch, gmatchF, uniMatch_nil]
    | cons v ws'' =>
      have hrest0 : runLen isLowerU ('-' :: interData (v :: ws'')) = 0 := by
        refine runLen_head_false _ _ _ ?_
        decide
      have hla : la1 ('-' :: interData (v :: ws'')) = true := by
        simp only [la1]
        have : isSepU '-' = true := by decide
        simp [this]
      have hm : uniMatch (w ++ '-' :: interData (v :: ws'')) = some w.length :=
        uniMatch_lower_word w _ hw.1 hw.2 hrest0 hla
      rw [show interData (w :: v :: ws'') = w ++ '-' :: interData (v :: ws'') from rfl]
      subst hcw
      have hm' : uniMatch (c :: (w' ++ '-' :: interData (v :: ws''))) =
          some (w'.length + 1) := by
        simpa using hm
      rw [show (c :: w') ++ '-' :: interData (v :: ws'') =
        c :: (w' ++ '-' :: interData (v :: ws'')) from rfl]
      rw [gmatch_cons_pos uniMatch c _ w'.length hm']
      have htake : (c :: (w' ++ '-' :: interData (v :: ws''))).take (w'.length + 1) =
          c :: w' := by
        rw [show c :: (w' ++ '-' :: interData (v :: ws'')) =
          (c :: w') ++ '-' :: interData (v :: ws'') from rfl]
        have : (c :: w').length = w'.length + 1 := by simp
        rw [← this, List.take_left]
      have hdrop : (c :: (w' ++ '-' :: interData (v :: ws''))).drop (w'.length + 1) =
          '-' :: interData (v :: ws'') := by
        rw [show c :: (w' ++ '-' :: interData (v :: ws'')) =
          (c :: w') ++ '-' :: interData (v :: ws'') from rfl]
        have : (c :: w').length = w'.length + 1 := by simp
        rw [← this, List.drop_left]
      rw [htake, hdrop]
      have hdash : uniMatch ('-' :: interData (v :: ws'')) = none := by
        refine uniMatch_head_false '-' _ ?_ ?_ ?_ <;> decide
      rw [gmatch_cons_none uniMatch '-' _ hdash]
      rw [ih fun u hu => h u (List.mem_cons_of_mem _ hu)]

/-- The characters of a hyphen-join are the hyphen-interleaving of the
words' characters. -/
theorem jsJoinSep_dash_data :
    ∀ ws : List String, (jsJoinSep "-" ws).data = interData (ws.map String.data) := by
  intro ws
  induction ws with
  | nil => rfl
  | cons w ws' ih =>
    cases ws' with
    | nil => rfl
    | cons v ws'' =>
      show (w ++ "-" ++ jsJoinSep "-" (v :: ws'')).data = _
      rw [String.data_append, String.data_append, ih, List.append_assoc]
      rfl

/-- `words` on a hyphen-join of non-empty all-lowercase words returns
exactly the words. -/
theorem words_kebab (ws : List String)
    (h : ∀ w ∈ ws, w.data ≠ [] ∧ ∀ c ∈ w.data, isAsciiLowerC c = true) :
    words (some (jsJoinSep "-" ws)) = ws := by
  cases ws with
  | nil => decide
  | cons w ws' =>
    have hw := h w (List.mem_cons_self w ws')
    have hne : jsJoinSep "-" (w :: ws') ≠ "" := by
      intro he
      have hdata := congrArg String.data he
      rw [jsJoinSep_dash_data] at hdata
      cases ws' with
      | nil => exact hw.1 hdata
      | cons v ws'' =>
        rw [show (w :: v :: ws'').map String.data =
          w.data :: (v :: ws'').map String.data from rfl] at hdata
        rw [show interData (w.data :: (v :: ws'').map String.data) =
          w.data ++ '-' :: interData ((v :: ws'').map String.data) from ?_] at hdata
        · cases hd : w.data with
          | nil => exact hw.1 hd
          | cons c t => rw [hd] at hdata; simp at hdata
        · cases hvd : (v :: ws'').map String.data with
          | nil => simp at hvd
          | cons u us => rfl
    simp only [words]
    rw [if_neg (by simpa using hne)]
    simp only [matchWords, jsJoinSep_dash_data]
    cases ws' with
    | nil =>
      have hlow : hasUni (interData ((w :: []).map String.data)) = false := by
        rw [show interData ((w :: []).map String.data) = w.data from rfl]
        exact hasUni_all_lower w.data hw.2
      rw [hlow]
      simp only [Bool.false_eq_true, if_false]
      rw [show interData ((w :: []).map String.data) = w.data from rfl]
      obtain ⟨c, t, hct⟩ : ∃ c t, w.data = c :: t := by
        cases hd : w.data with
        | nil => exact absurd hd hw.1
        | cons c t => exact ⟨c, t, rfl⟩
      have hword : ∀ c' ∈ w.data, isAsciiWordC c' = true :=
        fun c' hc' => (asciiLower_classes c' (hw.2 c' hc')).2.2.2.2
      have hrl : runLen isAsciiWordC w.data = w.data.length := by
        have := runLen_append isAsciiWordC w.data [] hword
        simpa [runLen] using this
      have hrl' : runLen isAsciiWordC (c :: t) = t.length + 1 := by
        rw [← hct, hrl, hct]
        simp
      have hmatch : asciiMatch (c :: t) = some (t.length + 1) := by
        simp [asciiMatch, hrl']
      rw [hct]
      rw [gmatch_cons_pos asciiMatch c t t.length hmatch]
      have hlen : t.length + 1 = (c :: t).length := by simp
      rw [hlen, List.take_length, List.drop_length]
      have hnil : gmatch asciiMatch [] = [] := by
        simp [gmatch, gmatchF, asciiMatch_nil]
      rw [hnil]
      simp only [List.map_cons, List.map_nil]
      rw [← hct, mk_data]
    | cons v ws'' =>
      have hdash : hasUni (interData ((w :: v :: ws'').map String.data)) = true := by
        rw [show interData ((w :: v :: ws'').map String.data) =
          w.data ++ '-' :: interData ((v :: ws'').map String.data) from ?_]
        · exact hasUni_dash _ _
        · cases hvd : (v :: ws'').map String.data with
          | nil => simp at hvd
          | cons u us =>
            rw [show (w :: v :: ws'').map String.data =
              w.data :: (v :: ws'').map String.data from rfl, hvd]
            rfl
      rw [hdash]
      simp only [if_true]
      rw [gmatch_kebab ((w :: v :: ws'').map String.data) ?_]
      · have h1 : (((w :: v :: ws'').map String.data).map fun l => String.mk l) =
            (w :: v :: ws'').map fun x => String.mk x.data := by
          rw [List.map_map]
          rfl
        rw [h1]
        have h2 : ((w :: v :: ws'').map fun x => String.mk x.data) =
            (w :: v :: ws'').map id :=
          List.map_congr_left fun x _ => mk_data x
        rw [h2, List.map_id]
      · intro u hu
        obtain ⟨x, hx, hxu⟩ := List.mem_map.mp hu
        subst hxu
        exact h x hx

/-- An indexed map with an index-blind function is a plain map. -/
theorem mapIdx_const {α β : Type} (g : α → β) :
    ∀ l : List α, (l.mapIdx fun _ a => g a) = l.map g := by
  intro l
  induction l with
  | nil => rfl
  | cons a t ih =>
    rw [List.mapIdx_cons, List.map_cons]
    exact congrArg _ ih

/-- `kebabCase` fixes strings already in hyphen-separated lowercase word
form. -/
theorem kebabCase_fixed (s : String) (ws : List String) (h : KebabForm ws s) :
    kebabCase s = some s := by
  obtain ⟨hjoin, hws⟩ := h
  subst hjoin
  simp only [kebabCase, caseStr, mapWords]
  rw [words_kebab ws hws]
  have h1 := seqOpt_mapIdx_some ws (fun _ w => some (lowerCase w)) (fun _ w => lowerCase w)
    fun _ _ _ => rfl
  rw [h1, mapIdx_const]
  have h2 : ws.map lowerCase = ws.map id :=
    List.map_congr_left fun w hw => lowerCase_fixed w (hws w hw).2
  rw [h2, List.map_id]
  rfl

/-- Claim C8: `kebabCase` lowercases every token and joins with `"-"`; on
any input already in hyphen-separated lowercase word form it is the
identity, hence idempotent there: `kebabCase (kebabCase s) = kebabCase s`. -/
theorem c8_kebab_idempotent :
    ∀ (s : String) (ws : List String), KebabForm ws s →
      kebabCase s = some s ∧ (kebabCase s).bind kebabCase = kebabCase s := by
  intro s ws h
  have h1 := kebabCase_fixed s ws h
  refine ⟨h1, ?_⟩
  rw [h1]
  simpa using h1

/-! ## Lemmas for the wildcard claim -/

/-- `starSkips` reaches exactly the suffixes obtained by deleting a
line-terminator-free prefix. -/
theorem starSkips_mem :
    ∀ ds t : List Char,
      t ∈ starSkips ds ↔ ∃ pre, ds = pre ++ t ∧ ∀ c ∈ pre, isLineTermC c = false := by
  intro ds
  induction ds with
  | nil =>
    intro t
    simp only [starSkips, List.mem_singleton]
    constructor
    · intro h
      subst h
      exact ⟨[], rfl, by simp⟩
    · rintro ⟨pre, hpre, _⟩
      rcases List.append_eq_nil.mp hpre.symm with ⟨_, ht⟩
      exact ht
  | cons d ds ih =>
    intro t
    simp only [starSkips]
    cases hlt : isLineTermC d with
    | true =>
      simp only [if_true, List.mem_singleton]
      constructor
      · intro h
        subst h
        exact ⟨[], rfl, by simp⟩
      · rintro ⟨pre, hpre, hclean⟩
        cases pre with
        | nil => simpa using hpre.symm
        | cons p pre' =>
          have hpd : p = d := by simpa using congrArg (List.headI) hpre.symm
          subst hpd
          exact absurd (hclean p (List.mem_cons_self p pre')) (by simp [hlt])
    | false =>
      simp only [Bool.false_eq_true, if_false, List.mem_cons]
      constructor
      · rintro (h | h)
        · subst h
          exact ⟨[], rfl, by simp⟩
        · obtain ⟨pre, hpre, hclean⟩ := (ih t).mp h
          refine ⟨d :: pre, by rw [hpre]; rfl, ?_⟩
          intro c hc
          rcases List.mem_cons.mp hc with he | hm
          · subst he
            exact hlt
          · exact hclean c hm
      · rintro ⟨pre, hpre, hclean⟩
        cases pre with
        | nil =>
          left
          simpa using hpre.symm
        | cons p pre' =>
          right
          have hpd : p = d := by simpa using congrArg (List.headI) hpre.symm
          subst hpd
          refine (ih t).mpr ⟨pre', by simpa using hpre, ?_⟩
          exact fun c hc => hclean c (List.mem_cons_of_mem p hc)

/-- Acceptance by a single-literal pattern tail. -/
theorem wcAccept_lit_single (x : Char) :
    ∀ t : List Char, wcAccept [WcTok.lit x] t = true ↔ t = [x] := by
  intro t
  cases t with
  | nil => simp [wcAccept]
  | cons d ds =>
    cases ds with
    | nil =>
      simp only [wcAccept, List.cons.injEq, and_true]
      constructor
      · intro h
        have := (Bool.and_eq_true _ _).mp h
        exact (beq_iff_eq.mp this.1).symm
      · intro h
        subst h
        simp
    | cons e es => simp [wcAccept]

/-- Full-match characterisation of the compiled pattern of `hel*o`: the
anchored `^hel.*?o$` accepts exactly the strings `hel` + any
line-terminator-free middle + `o`. -/
theorem wcAccept_helstar (ds : List Char) :
    wcAccept [WcTok.lit 'h', WcTok.lit 'e', WcTok.lit 'l', WcTok.anyStar, WcTok.lit 'o'] ds
        = true ↔
      ∃ mid, ds = 'h' :: 'e' :: 'l' :: (mid ++ ['o']) ∧
        ∀ c ∈ mid, isLineTermC c = false := by
  have hstar : ∀ rest : List Char,
      ((starSkips rest).any fun t => wcAccept [WcTok.lit 'o'] t) = true ↔
        ∃ mid, rest = mid ++ ['o'] ∧ ∀ c ∈ mid, isLineTermC c = false := by
    intro rest
    simp only [List.any_eq_true]
    constructor
    · rintro ⟨t, ht, hacc⟩
      obtain ⟨pre, hpre, hclean⟩ := (starSkips_mem rest t).mp ht
      have := (wcAccept_lit_single 'o' t).mp hacc
      subst this
      exact ⟨pre, hpre, hclean⟩
    · rintro ⟨mid, hmid, hclean⟩
      refine ⟨['o'], (starSkips_mem rest ['o']).mpr ⟨mid, hmid, hclean⟩, ?_⟩
      exact (wcAccept_lit_single 'o' ['o']).mpr rfl
  rcases ds with _ | ⟨c1, ds1⟩
  · simp [wcAccept]
  rcases ds1 with _ | ⟨c2, ds2⟩
  · simp [wcAccept]
  rcases ds2 with _ | ⟨c3, rest⟩
  · constructor
    · intro h
      simp [wcAccept, starSkips] at h
    · rintro ⟨mid, hmid, _⟩
      simp only [List.cons.injEq] at hmid
      exact absurd hmid.2.2 (by simp)
  · simp only [wcAccept, Bool.and_eq_true, beq_iff_eq]
    rw [hstar rest]
    constructor
    · rintro ⟨h1, h2, h3, mid, hmid, hclean⟩
      exact ⟨mid, by rw [← h1, ← h2, ← h3, hmid], hclean⟩
    · rintro ⟨mid, hmid, hclean⟩
      simp only [List.cons.injEq] at hmid
      exact ⟨hmid.1.symm, hmid.2.1.symm, hmid.2.2.1.symm, mid, hmid.2.2.2, hclean⟩

/-- Claim C5: for a pattern missing the raw-regex escape hatch,
`wildcardToRegExp` escapes the metacharacters, substitutes `*`/`+` by the
lazy `.*?`/`.+?`, and anchors the result; on `"hel*o"` the compiled
pattern is `^hel.*?o$`, whose whole-string test accepts `"hello"`,
`"helzzzzo"` and `"helo"` and rejects `"xhello"`, and in general accepts
exactly `hel` + line-terminator-free middle + `o`. -/
theorem c5_wildcard :
    (∀ (p : String) (flags : Option String), hatchExec p = none →
        wildcardToRegExp p flags =
          ("^" ++ plusRepl (starRepl (escapeMeta p)) ++ "$", flags)) ∧
      wildcardToRegExp "hel*o" none = ("^hel.*?o$", none) ∧
      wcTest "^hel.*?o$" "hello" = some true ∧
      wcTest "^hel.*?o$" "helzzzzo" = some true ∧
      wcTest "^hel.*?o$" "helo" = some true ∧
      wcTest "^hel.*?o$" "xhello" = some false ∧
      ∀ s : String,
        wcTest "^hel.*?o$" s = some true ↔
          ∃ mid, s.data = 'h' :: 'e' :: 'l' :: (mid ++ ['o']) ∧
            ∀ c ∈ mid, isLineTermC c = false := by
  refine ⟨?_, by decide, by decide, by decide, by decide, by decide, ?_⟩
  · intro p flags h
    simp [wildcardToRegExp, h, wildcardPattern]
  · intro s
    have hp : parsePat "^hel.*?o$" =
        some [WcTok.lit 'h', WcTok.lit 'e', WcTok.lit 'l', WcTok.anyStar, WcTok.lit 'o'] := by
      decide
    simp only [wcTest, hp, Option.map_some', Option.some.injEq]
    exact wcAccept_helstar s.data

/-! ## Lemmas for the template round-trip claim -/

/-- The first-quote escape is the identity on quote-free text. -/
theorem escFirstQuote_id :
    ∀ l : List Char, (∀ c ∈ l, (c == '\x22') = false) → escFirstQuote l = l := by
  intro l
  induction l with
  | nil => intro _; rfl
  | cons c t ih =>
    intro h
    simp only [escFirstQuote, h c (List.mem_cons_self c t)]
    simp only [Bool.false_eq_true, if_false]
    rw [ih fun d hd => h d (List.mem_cons_of_mem c hd)]

/-- Parsing a string literal whose body contains neither the delimiter,
a backslash nor a line terminator consumes the body verbatim up to the
closing delimiter. -/
theorem strLitF_clean (q : Char) :
    ∀ (l : List Char) (fuel : Nat) (acc tail : List Char),
      (∀ c ∈ l, (c == q) = false ∧ (c == '\x5c') = false ∧
        (c.toNat == 0xa) = false ∧ (c.toNat == 0xd) = false) →
      l.length + 1 ≤ fuel →
      strLitF q fuel (l ++ q :: tail) acc =
        some (String.mk (acc.reverse ++ l), tail) := by
  intro l
  induction l with
  | nil =>
    intro fuel acc tail _ hf
    cases fuel with
    | zero => omega
    | succ f =>
      simp [strLitF]
  | cons c t ih =>
    intro fuel acc tail h hf
    cases fuel with
    | zero => simp at hf
    | succ f =>
      have hc := h c (List.mem_cons_self c t)
      simp only [List.cons_append, strLitF, hc.1, hc.2.1, hc.2.2.1, hc.2.2.2,
        Bool.or_self, Bool.false_eq_true, if_false, List.append_eq]
      rw [ih f (c :: acc) tail (fun d hd => h d (List.mem_cons_of_mem c hd)) (by simp at hf ⊢; omega)]
      simp

/-- The trailing `]` parses to the empty item list at any fuel. -/
theorem genItemsF_rbracket : ∀ f : Nat, genItemsF f [']'] = some [] := by
  intro f
  cases f <;> rfl

/-- The segment view never outgrows the generated text. -/
theorem segsGo_length_le :
    ∀ (n : Nat) (parts : List String), parts.length ≤ n →
      (segsGo parts).length ≤ (genGo parts).length := by
  intro n
  induction n with
  | zero =>
    intro parts h
    have : parts = [] := List.length_eq_zero.mp (Nat.le_zero.mp h)
    subst this
    simp [segsGo, genGo]
  | succ n ih =>
    intro parts h
    cases parts with
    | nil => simp [segsGo, genGo]
    | cons s rest =>
      cases hD : headIsDollar s with
      | false =>
        have h1 : (segsGo (s :: rest)).length = (segsGo rest).length + 1 := by
          cases rest <;> simp [segsGo, hD]
        have h2 : (genGo (s :: rest)).length =
            (escFirstQuote s.data).length + (genGo rest).length + 3 := by
          cases rest <;> simp [genGo, hD] <;> omega
        have := ih rest (by simp at h; omega)
        omega
      | true =>
        cases rest with
        | nil =>
          have h1 : (segsGo [s]).length = 1 := by simp [segsGo, hD]
          have h2 : (genGo [s]).length = 16 := by simp [genGo, hD]
          omega
        | cons k r2 =>
          have h1 : (segsGo (s :: k :: r2)).length = (segsGo r2).length + 1 := by
            simp [segsGo, hD]
          have h2 : (genGo (s :: k :: r2)).length =
              k.data.length + (genGo r2).length + 7 := by
            simp [genGo, hD]
            omega
          have := ih r2 (by simp at h; omega)
          omega

/-- Wrapper of `strLitF_clean` at the fuel `parseStrLit` supplies. -/
theorem parseStrLit_clean (q : Char) (l tail : List Char)
    (h : ∀ c ∈ l, (c == q) = false ∧ (c == '\x5c') = false ∧
      (c.toNat == 0xa) = false ∧ (c.toNat == 0xd) = false) :
    parseStrLit q (l ++ q :: tail) = some (String.mk l, tail) := by
  have := strLitF_clean q l (l ++ q :: tail).length [] tail h (by simp)
  simpa [parseStrLit] using this

/-- The four character facts packed in `litCleanChar`. -/
theorem litClean_beq (c : Char) (h : litCleanChar c = true) :
    (c == '\x22') = false ∧ (c == '\x5c') = false ∧
      (c.toNat == 0xa) = false ∧ (c.toNat == 0xd) = false := by
  simp only [litCleanChar, Bool.not_eq_true', Bool.or_eq_false_iff] at h
  exact ⟨h.1.1.1, h.1.1.2, h.1.2, h.2⟩

/-- The four character facts packed in `keyCleanChar`. -/
theorem keyClean_beq (c : Char) (h : keyCleanChar c = true) :
    (c == '\x27') = false ∧ (c == '\x5c') = false ∧
      (c.toNat == 0xa) = false ∧ (c.toNat == 0xd) = false := by
  simp only [keyCleanChar, Bool.not_eq_true', Bool.or_eq_false_iff] at h
  exact ⟨h.1.1.1, h.1.1.2, h.1.2, h.2⟩

/-- Round trip of the generated program through the parser: on clean
segments, parsing the generated text yields exactly the item of each
segment. -/
theorem genItems_clean :
    ∀ (fuel : Nat) (parts : List String),
      (∀ seg ∈ segsGo parts, segClean seg = true) →
      (segsGo parts).length ≤ fuel →
      genItemsF fuel (genGo parts ++ [']']) = some ((segsGo parts).map segItem) := by
  intro fuel
  induction fuel with
  | zero =>
    intro parts h hlen
    cases parts with
    | nil =>
      rw [show genGo [] ++ [']'] = [']'] from rfl, genItemsF_rbracket]
      rfl
    | cons s rest =>
      exfalso
      have h1 : 1 ≤ (segsGo (s :: rest)).length := by
        cases hD : headIsDollar s <;> cases rest <;> simp [segsGo, hD]
      omega
  | succ f ih =>
    intro parts h hlen
    cases parts with
    | nil =>
      rw [show genGo [] ++ [']'] = [']'] from rfl, genItemsF_rbracket]
      rfl
    | cons s rest =>
      cases hD : headIsDollar s with
      | false =>
        have hseg : segsGo (s :: rest) = TemplSeg.lit s :: segsGo rest := by
          cases rest <;> simp [segsGo, hD]
        have hgen : genGo (s :: rest) =
            '\x22' :: (escFirstQuote s.data ++ '\x22' :: ',' :: genGo rest) := by
          cases rest <;> simp [genGo, hD]
        have hclean : segClean (TemplSeg.lit s) = true := by
          apply h
          rw [hseg]
          exact List.mem_cons_self _ _
        have hlit : ∀ c ∈ s.data, litCleanChar c = true := by
          simpa [segClean, List.all_eq_true] using hclean
        have hesc : escFirstQuote s.data = s.data :=
          escFirstQuote_id s.data fun c hc => (litClean_beq c (hlit c hc)).1
        rw [hgen, hesc]
        rw [show ('\x22' :: (s.data ++ '\x22' :: ',' :: genGo rest)) ++ [']'] =
          '\x22' :: (s.data ++ '\x22' :: (',' :: (genGo rest ++ [']']))) from by
            simp [List.append_assoc]]
        simp only [genItemsF]
        rw [parseStrLit_clean '\x22' s.data (',' :: (genGo rest ++ [']']))
          fun c hc => litClean_beq c (hlit c hc)]
        have hrest : genItemsF f (genGo rest ++ [']']) =
            some ((segsGo rest).map segItem) := by
          refine ih rest (fun seg hs => h seg ?_) ?_
          · rw [hseg]
            exact List.mem_cons_of_mem _ hs
          · rw [hseg] at hlen
            simp at hlen
            omega
        simp [hrest, hseg, segItem, mk_data]
      | true =>
        cases rest with
        | nil =>
          have hseg : segsGo [s] = [TemplSeg.ph "undefined"] := by
            simp [segsGo, hD]
          have hgen : genGo [s] =
              '$' :: 'd' :: '(' :: '\x27' :: ("undefined".data ++ ['\x27', ')', ',']) := by
            simp [genGo, hD]
          rw [hgen]
          rw [show ('$' :: 'd' :: '(' :: '\x27' ::
              ("undefined".data ++ ['\x27', ')', ','])) ++ [']'] =
            '$' :: 'd' :: '(' :: '\x27' ::
              ("undefined".data ++ '\x27' :: (')' :: ',' :: [']'])) from by
            simp [List.append_assoc]]
          simp only [genItemsF]
          rw [parseStrLit_clean '\x27' ("undefined").data (')' :: ',' :: [']'])
            (by decide)]
          simp [genItemsF_rbracket f, hseg, segItem, mk_data]
        | cons k r2 =>
          have hseg : segsGo (s :: k :: r2) = TemplSeg.ph k :: segsGo r2 := by
            simp [segsGo, hD]
          have hgen : genGo (s :: k :: r2) =
              '$' :: 'd' :: '(' :: '\x27' :: (k.data ++ '\x27' :: ')' :: ',' :: genGo r2) := by
            simp [genGo, hD]
          have hclean : segClean (TemplSeg.ph k) = true := by
            apply h
            rw [hseg]
            exact List.mem_cons_self _ _
          have hkey : ∀ c ∈ k.data, keyCleanChar c = true := by
            simpa [segClean, List.all_eq_true] using hclean
          rw [hgen]
          rw [show ('$' :: 'd' :: '(' :: '\x27' ::
              (k.data ++ '\x27' :: ')' :: ',' :: genGo r2)) ++ [']'] =
            '$' :: 'd' :: '(' :: '\x27' ::
              (k.data ++ '\x27' :: (')' :: ',' :: (genGo r2 ++ [']']))) from by
            simp [List.append_assoc]]
          simp only [genItemsF]
          rw [parseStrLit_clean '\x27' k.data (')' :: ',' :: (genGo r2 ++ [']']))
            fun c hc => keyClean_beq c (hkey c hc)]
          have hrest : genItemsF f (genGo r2 ++ [']']) =
              some ((segsGo r2).map segItem) := by
            refine ih r2 (fun seg hs => h seg ?_) ?_
            · rw [hseg]
              exact List.mem_cons_of_mem _ hs
            · rw [hseg] at hlen
              simp at hlen
              omega
          simp [hrest, hseg, segItem, mk_data]

/-- A successful placeholder match starts at a `$` and consumes at least
one character. -/
theorem phMatch_dollar (cs : List Char) (n : Nat) (key : List Char)
    (h : phMatch cs = some (n, key)) : ∃ t, cs = '$' :: '\x7b' :: t ∧ 1 ≤ n := by
  unfold phMatch at h
  split at h
  · rename_i t
    refine ⟨t, rfl, ?_⟩
    dsimp only at h
    split at h
    · cases h
    · split at h
      · rename_i j d hjd
        cases h
        omega
      · cases h
  · cases h

/-- Every split result has the alternating shape: literal pieces
interleaved with (`$`-initial whole-match, key) pairs. -/
theorem splitGoF_shape :
    ∀ (fuel : Nat) (cs acc : List Char), SplitShape (splitGoF fuel cs acc) := by
  intro fuel
  induction fuel with
  | zero =>
    intro cs acc
    cases cs with
    | nil => exact SplitShape.single _
    | cons c rest => exact SplitShape.single _
  | succ f ih =>
    intro cs acc
    cases cs with
    | nil => exact SplitShape.single _
    | cons c rest =>
      cases hm : phMatch (c :: rest) with
      | none =>
        simp only [splitGoF, hm]
        exact ih rest (c :: acc)
      | some p =>
        obtain ⟨n, key⟩ := p
        simp only [splitGoF, hm]
        refine SplitShape.triple _ _ _ _ ?_ (ih _ _)
        obtain ⟨t, hct, hn⟩ := phMatch_dollar _ n key hm
        have hc : c = '$' := by
          have := congrArg List.headI hct
          simpa using this
        subst hc
        cases n with
        | zero => omega
        | succ m => rfl

/-- A well-behaved segment round-trips the generated code. -/
theorem segOk_clean (seg : TemplSeg) (h : segOk seg = true) : segClean seg = true := by
  cases seg with
  | lit s =>
    simp only [segOk, Bool.and_eq_true] at h
    simp [segClean, h.2]
  | ph k => simpa [segOk, segClean] using h

/-- On a genuine split whose literal pieces do not start with `$`, the
code-generation loop's classification agrees with the spec's parse of the
split array. -/
theorem segsGo_eq_splitSegs :
    ∀ parts : List String, SplitShape parts →
      (∀ seg ∈ splitSegs parts, segOk seg = true) →
      segsGo parts = splitSegs parts := by
  intro parts hshape
  induction hshape with
  | single p =>
    intro h
    have hp : segOk (TemplSeg.lit p) = true := h _ (by simp [splitSegs])
    have hD : headIsDollar p = false := by
      simp only [segOk, Bool.and_eq_true, Bool.not_eq_true'] at hp
      exact hp.1
    simp [segsGo, splitSegs, hD]
  | triple p m k rest hm hsh ih =>
    intro h
    have hp : segOk (TemplSeg.lit p) = true := h _ (by simp [splitSegs])
    have hD : headIsDollar p = false := by
      simp only [segOk, Bool.and_eq_true, Bool.not_eq_true'] at hp
      exact hp.1
    have hrec := ih fun seg hs => h seg (by simp [splitSegs, hs])
    simp [segsGo, splitSegs, hD, hm, hrec]

/-- Claim C3 (amended): for every template whose parsed literal segments
do not begin with `$` and contain no double quote, backslash or line
terminator, and whose placeholder keys contain no single quote, backslash
or line terminator, compilation succeeds and, for every resolver, the
compiled function returns exactly the parsed segment sequence — the
split's literal pieces interleaved with its captured keys — in order:
literal segments verbatim, each placeholder replaced by the resolver's
value on its key, empty literal segments between adjacent placeholders
included; so the number and positions of the segments depend only on the
template string. -/
theorem c3_template_roundtrip_clean :
    ∀ (tpl : String) (d : String → JSValue),
      (∀ seg ∈ segsOfSpec tpl, segOk seg = true) →
      (template tpl).map (fun f => f d) =
        some ((segsOfSpec tpl).map (resolveSeg d)) := by
  intro tpl d h
  have hshape : SplitShape (splitTemplate tpl) := splitGoF_shape _ _ _
  have heq : segsGo (splitTemplate tpl) = splitSegs (splitTemplate tpl) :=
    segsGo_eq_splitSegs _ hshape h
  have hclean : ∀ seg ∈ segsGo (splitTemplate tpl), segClean seg = true := by
    intro seg hs
    rw [heq] at hs
    exact segOk_clean seg (h seg hs)
  have hparse : parseGen (fnSource tpl) = some ((segsOfSpec tpl).map segItem) := by
    have hexp : fnSource tpl =
        'r' :: 'e' :: 't' :: 'u' :: 'r' :: 'n' :: ' ' :: '[' ::
          (genGo (splitTemplate tpl) ++ [']']) := rfl
    rw [hexp]
    rw [show parseGen ('r' :: 'e' :: 't' :: 'u' :: 'r' :: 'n' :: ' ' :: '[' ::
        (genGo (splitTemplate tpl) ++ [']'])) =
      genItemsF (genGo (splitTemplate tpl) ++ [']']).length
        (genGo (splitTemplate tpl) ++ [']']) from rfl]
    rw [show (segsOfSpec tpl).map segItem =
      (segsGo (splitTemplate tpl)).map segItem from by rw [heq]; rfl]
    refine genItems_clean _ (splitTemplate tpl) hclean ?_
    have h1 := segsGo_length_le (splitTemplate tpl).length (splitTemplate tpl)
      (Nat.le_refl _)
    simp only [List.length_append]
    omega
  simp only [template, hparse, Option.map_some']
  refine congrArg some ?_
  simp only [evalGen, List.map_map]
  refine List.map_congr_left ?_
  intro seg _
  cases seg <;> rfl

/-! ## Witnesses -/

/-- Witness for the amended template round trip at a concrete template and
resolver. -/
theorem c3_template_roundtrip_clean_witness :
    (template "x$\x7ba\x7dy").map (fun f => f (fun _ => JSValue.vStr "V")) =
      some [JSValue.vStr "x", JSValue.vStr "V", JSValue.vStr "y"] :=
  (c3_template_roundtrip_clean "x$\x7ba\x7dy" (fun _ => JSValue.vStr "V")
    (by decide)).trans (by decide)

/-- Witness for the wildcard pipeline at a concrete non-hatch pattern. -/
theorem c5_wildcard_witness :
    wildcardToRegExp "hel*o" none =
      ("^" ++ plusRepl (starRepl (escapeMeta "hel*o")) ++ "$", none) :=
  c5_wildcard.1 "hel*o" none (by decide)

/-- Witness for the word-forming-free input case of the `words` claim. -/
theorem c6_words_absent_empty_witness : words (some "- -") = [] :=
  c6_words_absent_empty.2.2 "- -" (by decide)

/-- Witness for the falsy-fallback behaviour of `templateObject` at a map
binding the key to the empty string. -/
theorem c7_templateObject_witness :
    templateObject [("k", JSValue.vStr "")] (JSValue.vStr "N") "k" = JSValue.vStr "N" :=
  (c7_templateObject [("k", JSValue.vStr "")] (JSValue.vStr "N") "k").2.1
    (JSValue.vStr "") (by decide) (by decide)

/-- Witness for kebab-case idempotence at a concrete two-word form. -/
theorem c8_kebab_idempotent_witness :
    kebabCase "ab-cd" = some "ab-cd" ∧
      (kebabCase "ab-cd").bind kebabCase = kebabCase "ab-cd" :=
  c8_kebab_idempotent "ab-cd" ["ab", "cd"] ⟨by decide, by decide⟩

/-- Witness for token non-emptiness and `camelCase` totality at concrete
inputs. -/
theorem c10_tokens_nonempty_witness :
    ("ab" : String) ≠ "" ∧ (camelCase "x").isSome = true :=
  ⟨c10_tokens_nonempty.1 (some "ab") "ab" (by decide), c10_tokens_nonempty.2 "x"⟩
